import Mathlib

/-!
# Verification of the CL-splitting tool (`split_cl.py`)

Shallow embedding of the program that partitions the files changed on a git
branch into groups keyed by the nearest ancestor directory holding an OWNERS
marker file, and drives each group through a resumable branch/commit/upload
workflow.

Modelling conventions:
* Python strings are `List Char` (`Str`); `str s` injects a Lean string
  literal.
* `os.path` functions are the POSIX (`posixpath`) versions, since path
  separators are normalized with `os.path.normpath` / `os.path.sep = '/'`.
* The filesystem is a function `isfile : Str → Bool` giving `os.path.isfile`
  on an exact path string.
* External collaborators (git, the review client, interactive prompts) are
  oracles; their invocations are recorded as an effect trace (`Eff`).
* `Option` results model abnormal termination: `none` is an uncaught Python
  exception or a non-terminating loop, as noted at each definition.
-/

/-- Python strings, modelled as their list of characters. -/
abbrev Str := List Char

/-- Inject a Lean string literal as a `Str`. -/
def str (s : String) : Str := s.data

/-- ASCII whitespace, as matched by `str.strip`, `str.isspace` and the regex
class `\s` (unicode whitespace beyond ASCII is not modelled). -/
def isSpaceCh (c : Char) : Bool :=
  c = ' ' || c = '\t' || c = '\n' || c = '\r' || c = '\x0b' || c = '\x0c'

/-- ASCII letters, the regex class `[a-zA-Z]`. -/
def isAlphaCh (c : Char) : Bool :=
  ('a' ≤ c && c ≤ 'z') || ('A' ≤ c && c ≤ 'Z')

/-- ASCII digits, the regex class `[0-9]`. -/
def isDigitCh (c : Char) : Bool :=
  '0' ≤ c && c ≤ '9'

/-- `str.strip()`: remove leading and trailing whitespace. -/
def pystrip (s : Str) : Str :=
  ((s.dropWhile isSpaceCh).reverse.dropWhile isSpaceCh).reverse

/-- `str.lower()` for ASCII letters. -/
def pyLower (s : Str) : Str :=
  s.map fun c => if 'A' ≤ c && c ≤ 'Z' then Char.ofNat (c.toNat + 32) else c

/-- `str.split(sep)` for a one-character separator: `''.split('/') == ['']`. -/
def splitOnChar (sep : Char) : Str → List Str
  | [] => [[]]
  | c :: rest =>
    let r := splitOnChar sep rest
    if c = sep then [] :: r
    else
      match r with
      | [] => [[c]]
      | h :: t => (c :: h) :: t

/-- `sep.join(parts)`: concatenate with a one-character separator between
consecutive parts. -/
def joinWith (sep : Char) : List Str → Str
  | [] => []
  | [x] => x
  | x :: y :: t => x ++ sep :: joinWith sep (y :: t)

/-- `posixpath.join(a, b)` for two components. -/
def pyJoin (a b : Str) : Str :=
  if b.head? = some '/' then b
  else if a = [] || a.getLast? = some '/' then a ++ b
  else a ++ '/' :: b

/-- `os.path.join(*comps)` for a non-empty component list (Python raises
`TypeError` on an empty argument list; the `[]` case is unreachable here). -/
def joinAll : List Str → Str
  | [] => []
  | x :: rest => rest.foldl pyJoin x

/-- The `head` variable of `posixpath.dirname`: the part of `p` up to and
including the last `/` (empty if there is no `/`). -/
def dirnameHead (d : Str) : Str :=
  (d.reverse.dropWhile (fun c => c ≠ '/')).reverse

/-- `posixpath.dirname(p)`: everything up to (excluding) the last `/`, with
trailing slashes stripped unless the head consists only of slashes. -/
def dirnameL (d : Str) : Str :=
  if dirnameHead d ≠ [] ∧ (dirnameHead d).any (fun c => c ≠ '/') then
    ((dirnameHead d).reverse.dropWhile (fun c => c = '/')).reverse
  else dirnameHead d

/-- `posixpath.normpath(p)`: collapse separators and `.` components, resolve
`..` lexically, returning `.` for an empty result. -/
def normpathL (p : Str) : Str :=
  if p = [] then ['.']
  else
    let initialSlashes : Nat :=
      if p.head? = some '/' then
        if (str "//").isPrefixOf p ∧ ¬ (str "///").isPrefixOf p then 2 else 1
      else 0
    let comps := splitOnChar '/' p
    let newComps := comps.foldl
      (fun acc comp =>
        if comp = [] ∨ comp = ['.'] then acc
        else if comp ≠ str ".." ∨ (initialSlashes = 0 ∧ acc = []) ∨
            (acc ≠ [] ∧ acc.getLast? = some (str "..")) then acc ++ [comp]
        else if acc ≠ [] then acc.dropLast
        else acc)
      []
    let joined := List.replicate initialSlashes '/' ++ joinWith '/' newComps
    if joined = [] then ['.'] else joined

/-- `posixpath.abspath(p)` with an explicit current working directory. -/
def abspathL (cwd p : Str) : Str :=
  normpathL (if p.head? = some '/' then p else pyJoin cwd p)

/-- Decimal rendering of a natural number, for `'{}'.format(n)` / `'%r' % n`. -/
def natToStr (n : Nat) : Str := Nat.toDigits 10 n

/-! ## The ownership partitioner (`GetFilesSplitByOwners`) -/

/-- One step list of the upward ancestor walk of `GetFilesSplitByOwners`:

    while (dir_with_owners not in files_split_by_owners
           and not os.path.isfile(os.path.join(dir_with_owners, 'OWNERS'))):
      dir_with_owners = os.path.dirname(dir_with_owners)

`fuel` is a structural-recursion bound; `walkOwnersDir` below supplies enough
fuel that `fuel = 0` is reached only through the `dirnameL`-fixed-point case.
A `none` result models non-termination of the Python loop: once the walk
reaches a fixed point of `os.path.dirname` (the empty string, for relative
paths) with the loop condition still true, the loop runs forever. -/
def walkAux (isfile : Str → Bool) (keys : List Str) : Nat → Str → Option Str
  | 0, _ => none
  | fuel + 1, d =>
    if d ∈ keys ∨ isfile (pyJoin d (str "OWNERS")) = true then some d
    else if dirnameL d = d then none
    else walkAux isfile keys fuel (dirnameL d)

/-- The ancestor walk from a starting directory; `d.length + 1` fuel always
suffices because `dirnameL` strictly shortens its argument until it reaches a
fixed point. -/
def walkOwnersDir (isfile : Str → Bool) (keys : List Str) (d : Str) : Option Str :=
  walkAux isfile keys (d.length + 1) d

/-- The directory the ancestor walk starts from for one changed file:

    dir_with_owners = os.path.normpath(os.path.dirname(path))
    if max_depth >= 1:
      dir_with_owners = os.path.join(*dir_with_owners.split(os.path.sep)[:max_depth])
-/
def startDir (path : Str) (max_depth : Int) : Str :=
  let d := normpathL (dirnameL path)
  if 1 ≤ max_depth then joinAll ((splitOnChar '/' d).take max_depth.toNat)
  else d

/-- `files_split_by_owners.setdefault(k, []).append(v)` on an insertion-ordered
association list (Python dicts preserve insertion order). -/
def setdefaultAppend (m : List (Str × List (Str × Str))) (k : Str) (v : Str × Str) :
    List (Str × List (Str × Str)) :=
  match m with
  | [] => [(k, [v])]
  | (k', vs) :: rest =>
    if k' = k then (k', vs ++ [v]) :: rest
    else (k', vs) :: setdefaultAppend rest k v

/-- The loop body of `GetFilesSplitByOwners`, folding over the changed files
with the insertion-ordered map as accumulator. -/
def splitGo (isfile : Str → Bool) (max_depth : Int) :
    List (Str × Str) → List (Str × List (Str × Str)) →
    Option (List (Str × List (Str × Str)))
  | [], acc => some acc
  | (action, path) :: rest, acc =>
    match walkOwnersDir isfile (acc.map Prod.fst) (startDir path max_depth) with
    | none => none
    | some k => splitGo isfile max_depth rest (setdefaultAppend acc k (action, path))

/-- `GetFilesSplitByOwners(files, max_depth)`: a map from directories holding
an OWNERS file to the changed files they own, in first-seen insertion order.
`none` models non-termination of the ancestor walk. -/
def GetFilesSplitByOwners (isfile : Str → Bool) (files : List (Str × Str))
    (max_depth : Int) : Option (List (Str × List (Str × Str))) :=
  splitGo isfile max_depth files []

/-! ## Structural lemmas about the path functions -/

theorem reverse_dropWhile_prefixOf (q : Char → Bool) (l : Str) :
    (l.reverse.dropWhile q).reverse <+: l := by
  rw [← List.reverse_suffix]
  simpa using List.dropWhile_suffix (l := l.reverse) q

theorem dirnameHead_prefixOf (d : Str) : dirnameHead d <+: d :=
  reverse_dropWhile_prefixOf _ d

theorem dirnameL_prefixOf (d : Str) : dirnameL d <+: d := by
  unfold dirnameL
  split
  · exact (reverse_dropWhile_prefixOf _ (dirnameHead d)).trans (dirnameHead_prefixOf d)
  · exact dirnameHead_prefixOf d

theorem head?_of_prefixOf {l d : Str} (h : l <+: d) (hl : l ≠ []) :
    l.head? = d.head? := by
  obtain ⟨t, rfl⟩ := h
  rw [List.head?_append]
  cases l with
  | nil => exact absurd rfl hl
  | cons c cs => rfl

theorem dirnameL_head? {d : Str} (h : d.head? ≠ some '/') :
    (dirnameL d).head? ≠ some '/' := by
  by_cases hn : dirnameL d = []
  · rw [hn]; exact fun hc => by cases hc
  · rw [head?_of_prefixOf (dirnameL_prefixOf d) hn]; exact h

theorem head?_dropWhile_not (p : Char → Bool) (l : Str) {c : Char}
    (h : (l.dropWhile p).head? = some c) : p c = false := by
  induction l with
  | nil => cases h
  | cons a t ih =>
    rw [List.dropWhile_cons] at h
    split at h
    · exact ih h
    · rename_i hp
      simp only [List.head?_cons, Option.some.injEq] at h
      subst h
      simpa using hp

theorem dirnameL_length_lt {d : Str} (hne : d ≠ []) (hrel : d.head? ≠ some '/') :
    (dirnameL d).length < d.length := by
  have hple : (dirnameHead d).length ≤ d.length :=
    (dirnameHead_prefixOf d).length_le
  unfold dirnameL
  split
  · rename_i hcond
    -- the head is non-empty, so it ends with the `/` the dropWhile stopped at
    obtain ⟨hne', _⟩ := hcond
    have hrev : (dirnameHead d).reverse.head? = some '/' := by
      have : (dirnameHead d).reverse = d.reverse.dropWhile (fun c => c ≠ '/') := by
        simp [dirnameHead]
      rw [this]
      cases hh : (d.reverse.dropWhile (fun c => c ≠ '/')).head? with
      | none =>
        exfalso
        apply hne'
        have h0 : d.reverse.dropWhile (fun c => c ≠ '/') = [] := by
          cases hk : d.reverse.dropWhile (fun c => c ≠ '/') with
          | nil => rfl
          | cons x xs => rw [hk] at hh; simp at hh
        unfold dirnameHead
        rw [h0]
        rfl
      | some c =>
        have := head?_dropWhile_not (fun c => c ≠ '/') d.reverse hh
        simp at this
        rw [this]
    -- dropping trailing slashes removes at least one character
    obtain ⟨t, ht⟩ : ∃ t, (dirnameHead d).reverse = '/' :: t := by
      cases hk : (dirnameHead d).reverse with
      | nil => rw [hk] at hrev; cases hrev
      | cons x xs => rw [hk] at hrev; cases hrev; exact ⟨xs, rfl⟩
    have hlt : (((dirnameHead d).reverse.dropWhile (fun c => c = '/')).reverse).length
        < (dirnameHead d).length := by
      rw [List.length_reverse, ht]
      have h1 : (('/' :: t).dropWhile (fun c => c = '/')).length ≤ t.length := by
        have he : ('/' :: t).dropWhile (fun c => c = '/')
            = t.dropWhile (fun c => c = '/') := by
          rw [List.dropWhile_cons]
          simp
        rw [he]
        exact (List.dropWhile_suffix _).sublist.length_le
      have h2 : (dirnameHead d).length = t.length + 1 := by
        rw [← List.length_reverse (dirnameHead d), ht]; simp
      omega
    omega
  · rename_i hcond
    -- head is empty or consists only of slashes
    by_cases hz : dirnameHead d = []
    · rw [hz]
      simpa using List.length_pos.mpr hne
    · exfalso
      -- all characters of the non-empty head are slashes, yet it is a prefix
      -- of d, whose first character is not a slash
      have hall : ¬ (dirnameHead d).any (fun c => c ≠ '/') := by
        intro hc; exact hcond ⟨hz, hc⟩
      have hhd : (dirnameHead d).head? = d.head? :=
        head?_of_prefixOf (dirnameHead_prefixOf d) hz
      cases hk : dirnameHead d with
      | nil => exact hz hk
      | cons c cs =>
        have hc : c = '/' := by
          by_contra hcc
          apply hall
          rw [hk]
          simp [List.any_cons]
          exact Or.inl hcc
        rw [hk, hc] at hhd
        exact hrel hhd.symm

theorem pyJoin_ne_right {a b : Str} (ha : a ≠ []) (hb : b.head? ≠ some '/') :
    pyJoin a b ≠ b := by
  unfold pyJoin
  rw [if_neg hb]
  intro h
  split at h
  · have := congrArg List.length h
    simp at this
    exact ha this
  · have := congrArg List.length h
    simp at this
    omega

/-! ## Partition correctness of `GetFilesSplitByOwners` (claim C1) -/

theorem keys_setdefaultAppend (m : List (Str × List (Str × Str))) (k : Str)
    (v : Str × Str) :
    (setdefaultAppend m k v).map Prod.fst =
      if k ∈ m.map Prod.fst then m.map Prod.fst else m.map Prod.fst ++ [k] := by
  induction m with
  | nil => simp [setdefaultAppend]
  | cons e rest ih =>
    obtain ⟨k', vs⟩ := e
    by_cases h : k' = k
    · subst h
      simp [setdefaultAppend]
    · simp only [setdefaultAppend, if_neg h, List.map_cons, Prod.fst]
      rw [ih]
      by_cases hm : k ∈ rest.map Prod.fst
      · simp [hm, Ne.symm h]
      · simp [hm, Ne.symm h]

theorem nodup_keys_setdefaultAppend {m : List (Str × List (Str × Str))}
    (k : Str) (v : Str × Str) (h : (m.map Prod.fst).Nodup) :
    ((setdefaultAppend m k v).map Prod.fst).Nodup := by
  rw [keys_setdefaultAppend]
  split
  · exact h
  · rename_i hk
    exact List.Nodup.append h (List.nodup_singleton k)
      (List.disjoint_singleton.mpr hk)

theorem flatten_setdefaultAppend (m : List (Str × List (Str × Str))) (k : Str)
    (v : Str × Str) :
    ((setdefaultAppend m k v).map Prod.snd).flatten.Perm
      ((m.map Prod.snd).flatten ++ [v]) := by
  induction m with
  | nil => simp [setdefaultAppend]
  | cons e rest ih =>
    obtain ⟨k', vs⟩ := e
    by_cases h : k' = k
    · subst h
      have hsd : setdefaultAppend ((k', vs) :: rest) k' v = (k', vs ++ [v]) :: rest := by
        simp [setdefaultAppend]
      rw [hsd]
      simp only [List.map_cons, List.flatten_cons]
      rw [List.append_assoc, List.append_assoc]
      exact List.Perm.append_left vs List.perm_append_comm
    · have hsd : setdefaultAppend ((k', vs) :: rest) k v
          = (k', vs) :: setdefaultAppend rest k v := by
        simp [setdefaultAppend, h]
      rw [hsd]
      simp only [List.map_cons, List.flatten_cons]
      rw [List.append_assoc]
      exact List.Perm.append_left vs ih

theorem splitGo_spec (isfile : Str → Bool) (max_depth : Int) :
    ∀ (files : List (Str × Str)) (acc m : List (Str × List (Str × Str))),
      (acc.map Prod.fst).Nodup → splitGo isfile max_depth files acc = some m →
      (m.map Prod.fst).Nodup ∧
        (m.map Prod.snd).flatten.Perm ((acc.map Prod.snd).flatten ++ files) := by
  intro files
  induction files with
  | nil =>
    intro acc m hnd h
    simp only [splitGo, Option.some.injEq] at h
    subst h
    exact ⟨hnd, by simp⟩
  | cons f rest ih =>
    intro acc m hnd h
    obtain ⟨action, path⟩ := f
    simp only [splitGo] at h
    cases hw : walkOwnersDir isfile (acc.map Prod.fst) (startDir path max_depth) with
    | none => rw [hw] at h; cases h
    | some k =>
      rw [hw] at h
      obtain ⟨hnd', hperm⟩ :=
        ih (setdefaultAppend acc k (action, path)) m
          (nodup_keys_setdefaultAppend k _ hnd) h
      refine ⟨hnd', hperm.trans ?_⟩
      have heq : (acc.map Prod.snd).flatten ++ ((action, path) :: rest)
          = ((acc.map Prod.snd).flatten ++ [(action, path)]) ++ rest := by
        rw [List.append_assoc]
        rfl
      rw [heq]
      exact (flatten_setdefaultAppend acc k (action, path)).append_right rest

/-- Claim C1: for every list of changed `(action, path)` files, every marker
layout and every `max_depth`, whenever `GetFilesSplitByOwners` returns a map,
that map is a partition of the input: the directory keys are pairwise
distinct, and the concatenation of all member lists is a permutation of the
input file list — so each input file lands in exactly one group, none is
dropped, none is duplicated, and none is shared between two keys. -/
theorem GetFilesSplitByOwners_partition (isfile : Str → Bool)
    (files : List (Str × Str)) (max_depth : Int)
    (m : List (Str × List (Str × Str)))
    (h : GetFilesSplitByOwners isfile files max_depth = some m) :
    (m.map Prod.fst).Nodup ∧ (m.map Prod.snd).flatten.Perm files := by
  have := splitGo_spec isfile max_depth files [] m (by simp) h
  simpa using this

/-- Witness for C1 at a concrete input: one modified file `a/x.txt` with the
marker only at the repository root, producing the single group keyed `''`. -/
theorem GetFilesSplitByOwners_partition_witness :
    (([(str "", [(str "M", str "a/x.txt")])].map Prod.fst).Nodup ∧
      ([(str "", [(str "M", str "a/x.txt")])].map Prod.snd).flatten.Perm
        [(str "M", str "a/x.txt")]) :=
  GetFilesSplitByOwners_partition (fun p => p == str "OWNERS")
    [(str "M", str "a/x.txt")] 0 _ (by rfl)

/-! ## Claim C2: behavior of the ancestor walk at the root -/

theorem walkAux_root_fallback (isfile : Str → Bool)
    (hroot : isfile (str "OWNERS") = true)
    (hothers : ∀ p, p ≠ str "OWNERS" → isfile p = false) :
    ∀ (fuel : Nat) (d : Str), d.length < fuel → d.head? ≠ some '/' →
      walkAux isfile [] fuel d = some [] := by
  intro fuel
  induction fuel with
  | zero => intro d hd _; omega
  | succ n ih =>
    intro d hd hrel
    by_cases hde : d = []
    · subst hde
      have hj : pyJoin [] (str "OWNERS") = str "OWNERS" := by rfl
      simp [walkAux, hj, hroot]
    · have hlt := dirnameL_length_lt hde hrel
      have hne2 : dirnameL d ≠ d := by
        intro heq
        rw [heq] at hlt
        omega
      have hof : isfile (pyJoin d (str "OWNERS")) = false :=
        hothers _ (pyJoin_ne_right hde (by decide))
      simp only [walkAux, List.not_mem_nil, false_or, hof, Bool.false_eq_true,
        if_false, if_neg hne2]
      have hlen : (dirnameL d).length < n := by omega
      exact ih (dirnameL d) hlen (dirnameL_head? hrel)

/-- Claim C2 is refuted by `walkOwnersDir_no_marker_loops` below; this is the
amended statement: when the repository root holds the only `OWNERS` marker
(so no candidate directory is a key of the still-empty result map and no
non-root directory on the path holds a marker), the upward walk from any
relative directory terminates at the root directory `''` and uses it as the
fallback group key. Without a root marker the loop never terminates. -/
theorem walkOwnersDir_root_marker_fallback (isfile : Str → Bool) (d : Str)
    (hroot : isfile (str "OWNERS") = true)
    (hothers : ∀ p, p ≠ str "OWNERS" → isfile p = false)
    (hrel : d.head? ≠ some '/') :
    walkOwnersDir isfile [] d = some (str "") :=
  walkAux_root_fallback isfile hroot hothers (d.length + 1) d (by omega) hrel

/-- Witness for the amended C2 at a concrete input: only the root `OWNERS`
exists and the walk from `a/b` lands on the root key `''`. -/
theorem walkOwnersDir_root_marker_fallback_witness :
    walkOwnersDir (fun p => p == str "OWNERS") [] (str "a/b") = some (str "") :=
  walkOwnersDir_root_marker_fallback _ _ (by decide)
    (fun p hp => by simpa using hp) (by decide)

/-- Counterexample to claim C2 as stated: with no `OWNERS` marker anywhere on
the path (including the root) and an empty result map, the ancestor walk of
`GetFilesSplitByOwners` does not stop at the root — it never terminates
(`none` models the non-terminating `while` loop), so the partitioner itself
never returns. -/
theorem walkOwnersDir_no_marker_loops :
    walkOwnersDir (fun _ => false) [] (str "a") = none ∧
      GetFilesSplitByOwners (fun _ => false) [(str "M", str "a/x.txt")] 0 = none :=
  ⟨by decide, by decide⟩

/-! ## Claim C4: `max_depth` truncation of the starting directory -/

theorem splitOnChar_ne_nil (sep : Char) (l : Str) : splitOnChar sep l ≠ [] := by
  cases l with
  | nil => simp [splitOnChar]
  | cons c rest =>
    simp only [splitOnChar]
    split
    · simp
    · cases h : splitOnChar sep rest <;> simp

theorem not_sep_mem_splitOnChar (sep : Char) (l : Str) :
    ∀ x ∈ splitOnChar sep l, sep ∉ x := by
  induction l with
  | nil =>
    intro x hx
    simp only [splitOnChar, List.mem_singleton] at hx
    subst hx
    simp
  | cons c rest ih =>
    intro x hx
    simp only [splitOnChar] at hx
    split at hx
    · rcases List.mem_cons.mp hx with h | h
      · subst h; simp
      · exact ih x h
    · rename_i hc
      cases hr : splitOnChar sep rest with
      | nil => exact absurd hr (splitOnChar_ne_nil sep rest)
      | cons h0 t0 =>
        rw [hr] at hx
        rcases List.mem_cons.mp hx with h | h
        · subst h
          intro hmem
          rcases List.mem_cons.mp hmem with h' | h'
          · exact hc h'.symm
          · exact ih h0 (by rw [hr]; exact List.mem_cons_self h0 t0) h'
        · exact ih x (by rw [hr]; exact List.mem_cons_of_mem h0 h)

theorem splitOnChar_append_sep (sep : Char) (a t : Str) (ha : sep ∉ a) :
    splitOnChar sep (a ++ sep :: t) = a :: splitOnChar sep t := by
  induction a with
  | nil => simp [splitOnChar]
  | cons c a' ih =>
    have hc : ¬ c = sep := by
      intro h
      exact ha (by rw [h]; exact List.mem_cons_self _ _)
    have ha' : sep ∉ a' := fun h => ha (List.mem_cons_of_mem _ h)
    show splitOnChar sep (c :: (a' ++ sep :: t)) = (c :: a') :: splitOnChar sep t
    simp only [splitOnChar]
    rw [if_neg hc, ih ha']

theorem splitOnChar_no_sep (sep : Char) (l : Str) (h : sep ∉ l) :
    splitOnChar sep l = [l] := by
  induction l with
  | nil => rfl
  | cons c rest ih =>
    have hc : ¬ c = sep := by
      intro hh
      exact h (by rw [hh]; exact List.mem_cons_self _ _)
    have h' : sep ∉ rest := fun hh => h (List.mem_cons_of_mem _ hh)
    simp only [splitOnChar]
    rw [if_neg hc, ih h']

theorem splitOnChar_joinWith (sep : Char) :
    ∀ (L : List Str), L ≠ [] → (∀ l ∈ L, sep ∉ l) →
      splitOnChar sep (joinWith sep L) = L := by
  intro L
  induction L with
  | nil => intro h _; exact absurd rfl h
  | cons x rest ih =>
    intro _ hall
    cases rest with
    | nil => exact splitOnChar_no_sep sep x (hall x (by simp))
    | cons y t =>
      show splitOnChar sep (x ++ sep :: joinWith sep (y :: t)) = x :: y :: t
      rw [splitOnChar_append_sep sep x _ (hall x (by simp))]
      rw [ih (by simp) (fun l hl => hall l (List.mem_cons_of_mem x hl))]

theorem mem_of_getLast?_eq {α : Type} : ∀ {l : List α} {x : α},
    l.getLast? = some x → x ∈ l := by
  intro l
  induction l with
  | nil => intro x h; cases h
  | cons c t ih =>
    intro x h
    cases t with
    | nil =>
      simp at h
      subst h
      simp
    | cons y t' =>
      rw [List.getLast?_cons_cons] at h
      exact List.mem_cons_of_mem _ (ih h)

theorem getLast?_ne_slash_of_clean {c : Str} (h2 : '/' ∉ c) :
    c.getLast? ≠ some '/' := fun hl => h2 (mem_of_getLast?_eq hl)

theorem getLast?_cons_of_ne {α : Type} {a : α} {t : List α} (h : t ≠ []) :
    (a :: t).getLast? = t.getLast? := by
  cases t with
  | nil => exact absurd rfl h
  | cons b t' => exact List.getLast?_cons_cons

theorem pyJoin_clean (a c : Str) (ha : a ≠ []) (hal : a.getLast? ≠ some '/')
    (hch : c.head? ≠ some '/') : pyJoin a c = a ++ '/' :: c := by
  unfold pyJoin
  rw [if_neg hch]
  split
  · rename_i hcond
    exfalso
    simp at hcond
    rcases hcond with h | h
    · exact ha h
    · exact hal h
  · rfl

theorem foldl_pyJoin_clean :
    ∀ (rest : List Str) (acc : Str), acc ≠ [] → acc.getLast? ≠ some '/' →
      (∀ c ∈ rest, c ≠ [] ∧ '/' ∉ c) →
      rest.foldl pyJoin acc = acc ++ (rest.map (fun c => '/' :: c)).flatten := by
  intro rest
  induction rest with
  | nil => intro acc _ _ _; simp
  | cons c rest' ih =>
    intro acc hne hal hclean
    obtain ⟨hc1, hc2⟩ := hclean c (by simp)
    have hch : c.head? ≠ some '/' := by
      cases c with
      | nil => exact absurd rfl hc1
      | cons a t =>
        simp only [List.head?_cons]
        intro hh
        injection hh with hh
        exact hc2 (by rw [hh]; exact List.mem_cons_self _ _)
    rw [List.foldl_cons, pyJoin_clean acc c hne hal hch]
    rw [ih (acc ++ '/' :: c) (by simp) ?hlast ?hrest]
    case hlast =>
      rw [List.getLast?_append, getLast?_cons_of_ne hc1]
      obtain ⟨e, he⟩ := Option.isSome_iff_exists.mp
        (List.getLast?_isSome.mpr hc1)
      rw [he]
      intro hcontra
      rw [show (some e).or acc.getLast? = some e from rfl] at hcontra
      injection hcontra with hcontra
      exact getLast?_ne_slash_of_clean hc2 (by rw [he, hcontra])
    case hrest => exact fun x hx => hclean x (List.mem_cons_of_mem c hx)
    simp [List.append_assoc]

theorem joinWith_eq_flatten (sep : Char) : ∀ (x : Str) (rest : List Str),
    joinWith sep (x :: rest) = x ++ (rest.map (fun c => sep :: c)).flatten := by
  intro x rest
  induction rest generalizing x with
  | nil => simp [joinWith]
  | cons y t ih =>
    show x ++ sep :: joinWith sep (y :: t) = _
    rw [ih y]
    simp

theorem joinAll_clean (L : List Str) (hL : L ≠ [])
    (hclean : ∀ c ∈ L, c ≠ [] ∧ '/' ∉ c) :
    joinAll L = joinWith '/' L := by
  cases L with
  | nil => exact absurd rfl hL
  | cons x rest =>
    obtain ⟨hx1, hx2⟩ := hclean x (by simp)
    rw [show joinAll (x :: rest) = rest.foldl pyJoin x from rfl]
    rw [foldl_pyJoin_clean rest x hx1 (getLast?_ne_slash_of_clean hx2)
      (fun c hc => hclean c (List.mem_cons_of_mem x hc))]
    rw [joinWith_eq_flatten]

/-- Claim C4: when `max_depth < 1` the ancestor search starts from the file's
full (normalized) directory, and when `max_depth ≥ 1` and the directory has
more than `max_depth` components, the search starts from the directory
truncated to exactly its first `max_depth` components — never from the full
directory path. (`startDir` is, by definition of `splitGo`, the directory the
walk of `GetFilesSplitByOwners` starts from for one file; the component
non-emptiness hypothesis holds for the relative, normalized paths a git
status diff produces.) -/
theorem startDir_truncation (path : Str) (max_depth : Int) :
    (max_depth < 1 → startDir path max_depth = normpathL (dirnameL path)) ∧
    (1 ≤ max_depth →
      (∀ c ∈ splitOnChar '/' (normpathL (dirnameL path)), c ≠ []) →
      max_depth.toNat < (splitOnChar '/' (normpathL (dirnameL path))).length →
      splitOnChar '/' (startDir path max_depth)
          = (splitOnChar '/' (normpathL (dirnameL path))).take max_depth.toNat ∧
        startDir path max_depth ≠ normpathL (dirnameL path)) := by
  constructor
  · intro h
    unfold startDir
    rw [if_neg (by omega)]
  · intro hmd hne hlen
    have hclean : ∀ c ∈ (splitOnChar '/' (normpathL (dirnameL path))).take
        max_depth.toNat, c ≠ [] ∧ '/' ∉ c := by
      intro c hc
      have hmem := List.take_subset _ _ hc
      exact ⟨hne c hmem, not_sep_mem_splitOnChar '/' _ c hmem⟩
    have htake_ne : (splitOnChar '/' (normpathL (dirnameL path))).take
        max_depth.toNat ≠ [] := by
      apply List.ne_nil_of_length_pos
      rw [List.length_take]
      have h1 : 1 ≤ max_depth.toNat := by omega
      omega
    have hstart : startDir path max_depth
        = joinWith '/' ((splitOnChar '/' (normpathL (dirnameL path))).take
            max_depth.toNat) := by
      unfold startDir
      rw [if_pos hmd]
      exact joinAll_clean _ htake_ne hclean
    have hsplit : splitOnChar '/' (startDir path max_depth)
        = (splitOnChar '/' (normpathL (dirnameL path))).take max_depth.toNat := by
      rw [hstart]
      exact splitOnChar_joinWith '/' _ htake_ne (fun l hl => (hclean l hl).2)
    refine ⟨hsplit, ?_⟩
    intro heq
    have hcongr := congrArg (splitOnChar '/') heq
    rw [hsplit] at hcongr
    have hlen2 := congrArg List.length hcongr
    rw [List.length_take] at hlen2
    omega

/-- Witness for C4 at the spec's example: a file at directory depth 5 with
`max_depth = 2` starts the walk from the depth-2 prefix `a/b`, not from the
full directory `a/b/c/d/e`. -/
theorem startDir_truncation_witness :
    (splitOnChar '/' (startDir (str "a/b/c/d/e/x.txt") 2)
        = (splitOnChar '/' (normpathL (dirnameL (str "a/b/c/d/e/x.txt")))).take
            (Int.toNat 2) ∧
      startDir (str "a/b/c/d/e/x.txt") 2
        ≠ normpathL (dirnameL (str "a/b/c/d/e/x.txt"))) :=
  (startDir_truncation (str "a/b/c/d/e/x.txt") 2).2 (by decide) (by decide)
    (by decide)

/-! ## Claim C8: the `$directory` substitution of `FormatDescriptionOrComment` -/

/-- `str.replace(pat, rep)` for a non-empty pattern: replace all
non-overlapping occurrences, scanning left to right. `fuel` is a structural
bound; every step consumes at least one character of `s`, so `s.length` fuel
suffices (the `fuel = 0` case is reached only with `s = []`). -/
def replaceAllFuel (pat rep : Str) : Nat → Str → Str
  | 0, _ => []
  | fuel + 1, s =>
    match s with
    | [] => []
    | c :: rest =>
      if pat ≠ [] ∧ pat.isPrefixOf (c :: rest) then
        rep ++ replaceAllFuel pat rep fuel ((c :: rest).drop pat.length)
      else c :: replaceAllFuel pat rep fuel rest

/-- `s.replace(pat, rep)` (for the non-empty patterns this program uses). -/
def replaceAll (s pat rep : Str) : Str := replaceAllFuel pat rep s.length s

/-- The literal pattern `'$directory'` of `FormatDescriptionOrComment`. -/
def dollarPat : Str := str "$directory"

/-- `FormatDescriptionOrComment(txt, directory)`:
`txt.replace('$directory', '/' + directory)`. -/
def FormatDescriptionOrComment (txt directory : Str) : Str :=
  replaceAll txt dollarPat ('/' :: directory)

theorem replaceAllFuel_of_not_infix (pat rep : Str) :
    ∀ (fuel : Nat) (s : Str), s.length ≤ fuel → ¬ pat <:+: s →
      replaceAllFuel pat rep fuel s = s := by
  intro fuel
  induction fuel with
  | zero =>
    intro s hs _
    have : s = [] := List.eq_nil_of_length_eq_zero (by omega)
    subst this
    rfl
  | succ n ih =>
    intro s hs hni
    cases s with
    | nil => rfl
    | cons c rest =>
      simp only [replaceAllFuel]
      rw [if_neg]
      · have : replaceAllFuel pat rep n rest = rest := by
          apply ih rest (by simp at hs; omega)
          intro hinf
          exact hni (hinf.trans (List.infix_cons_iff.mpr (Or.inr (List.infix_refl rest))))
        rw [this]
      · rintro ⟨_, hpre⟩
        exact hni (List.isPrefixOf_iff_prefix.mp hpre).isInfix

theorem infix_right_of_head_not_mem {pat y : Str} {h0 : Char}
    (hh : pat.head? = some h0) :
    ∀ (x : Str), h0 ∉ x → pat <:+: x ++ y → pat <:+: y := by
  intro x
  induction x with
  | nil => intro _ h; simpa using h
  | cons a x' ih =>
    intro hx hinf
    rw [List.cons_append] at hinf
    rcases List.infix_cons_iff.mp hinf with hpre | hinf'
    · exfalso
      cases pat with
      | nil => cases hh
      | cons p0 pt =>
        simp only [List.head?_cons, Option.some.injEq] at hh
        obtain ⟨t, ht⟩ := hpre
        rw [List.cons_append] at ht
        injection ht with h1 _
        apply hx
        rw [← hh, h1]
        exact List.mem_cons_self _ _
    · exact ih (fun hm => hx (List.mem_cons_of_mem a hm)) hinf'

theorem not_prefix_of_head_ne {p x : Str} {a b : Char}
    (hp : p.head? = some a) (hxh : x.head? = some b) (hab : a ≠ b) :
    ¬ p <+: x := by
  rintro ⟨t, ht⟩
  cases p with
  | nil => cases hp
  | cons p0 pt =>
    cases x with
    | nil => cases hxh
    | cons x0 xt =>
      simp only [List.head?_cons, Option.some.injEq] at hp hxh
      rw [List.cons_append] at ht
      injection ht with h1 _
      exact hab (by rw [← hp, ← hxh, h1])

theorem replaceAllFuel_dollar_clean (dd : Str) (hd : '$' ∉ dd) :
    ∀ (fuel : Nat) (s : Str), s.length ≤ fuel →
      (¬ dollarPat <:+: replaceAllFuel dollarPat ('/' :: dd) fuel s) ∧
      (∀ k, 0 < k → k < dollarPat.length →
        dollarPat.drop k <+: replaceAllFuel dollarPat ('/' :: dd) fuel s →
        dollarPat.drop k <+: s) := by
  have hdne : dollarPat ≠ [] := by decide
  have h10 : dollarPat.length = 10 := by decide
  have hdollar_rep : '$' ∉ ('/' :: dd) := by
    intro hm
    rcases List.mem_cons.mp hm with h | h
    · exact absurd h (by decide)
    · exact hd h
  intro fuel
  induction fuel with
  | zero =>
    intro s hs
    have hsnil : s = [] := List.eq_nil_of_length_eq_zero (by omega)
    subst hsnil
    refine ⟨?_, ?_⟩
    · intro h
      simp only [replaceAllFuel] at h
      simp at h
      exact hdne h
    · intro k _ _ hpre
      simpa only [replaceAllFuel] using hpre
  | succ n ih =>
    intro s hs
    cases s with
    | nil =>
      refine ⟨?_, ?_⟩
      · intro h
        simp only [replaceAllFuel] at h
        simp at h
        exact hdne h
      · intro k _ _ hpre
        simpa only [replaceAllFuel] using hpre
    | cons c rest =>
      have hrest_le : rest.length ≤ n := by
        simp only [List.length_cons] at hs
        omega
      by_cases hcond : dollarPat ≠ [] ∧ dollarPat.isPrefixOf (c :: rest)
      · have hred : replaceAllFuel dollarPat ('/' :: dd) (n + 1) (c :: rest)
            = ('/' :: dd) ++ replaceAllFuel dollarPat ('/' :: dd) n
                ((c :: rest).drop dollarPat.length) := by
          simp only [replaceAllFuel, if_pos hcond]
        have hdrop_le : ((c :: rest).drop dollarPat.length).length ≤ n := by
          rw [List.length_drop]
          simp only [List.length_cons] at hs ⊢
          omega
        obtain ⟨ih1, ih2⟩ := ih ((c :: rest).drop dollarPat.length) hdrop_le
        refine ⟨?_, ?_⟩
        · rw [hred]
          intro hinf
          exact ih1 (infix_right_of_head_not_mem (by decide) ('/' :: dd)
            hdollar_rep hinf)
        · intro k hk1 hk2 hpre
          rw [hred] at hpre
          exfalso
          cases hdk : dollarPat.drop k with
          | nil =>
            have hlen := congrArg List.length hdk
            rw [List.length_drop] at hlen
            simp at hlen
            omega
          | cons q qt =>
            have hqmem : q ∈ dollarPat := by
              have hq0 : q ∈ dollarPat.drop k := by
                rw [hdk]
                exact List.mem_cons_self _ _
              exact (List.drop_subset k dollarPat) hq0
            have hq : q ≠ '/' :=
              fun h => (show '/' ∉ dollarPat by decide) (h ▸ hqmem)
            rw [hdk] at hpre
            exact not_prefix_of_head_ne (p := q :: qt) (by simp)
              (by rw [List.cons_append]; rfl) hq hpre
      · have hred : replaceAllFuel dollarPat ('/' :: dd) (n + 1) (c :: rest)
            = c :: replaceAllFuel dollarPat ('/' :: dd) n rest := by
          simp only [replaceAllFuel, if_neg hcond]
        obtain ⟨ih1, ih2⟩ := ih rest hrest_le
        have hnotpre : ¬ dollarPat <+: (c :: rest) := by
          intro hp
          exact hcond ⟨hdne, List.isPrefixOf_iff_prefix.mpr hp⟩
        have hsplit : dollarPat = '$' :: dollarPat.drop 1 := by decide
        refine ⟨?_, ?_⟩
        · rw [hred]
          intro hinf
          rcases List.infix_cons_iff.mp hinf with hpre | hinf'
          · rw [hsplit] at hpre
            obtain ⟨t, ht⟩ := hpre
            rw [List.cons_append] at ht
            injection ht with hce ht2
            have hp1 : dollarPat.drop 1 <+: replaceAllFuel dollarPat ('/' :: dd) n rest :=
              ⟨t, ht2⟩
            have hp2 : dollarPat.drop 1 <+: rest :=
              ih2 1 (by omega) (by omega) hp1
            apply hnotpre
            obtain ⟨t', ht'⟩ := hp2
            rw [hsplit]
            exact ⟨t', by rw [List.cons_append, ht', hce]⟩
          · exact ih1 hinf'
        · intro k hk1 hk2 hpre
          rw [hred] at hpre
          cases hdk : dollarPat.drop k with
          | nil =>
            exact List.nil_prefix
          | cons q qt =>
            rw [hdk] at hpre
            obtain ⟨t, ht⟩ := hpre
            rw [List.cons_append] at ht
            injection ht with h1 h2
            have hqt : dollarPat.drop (k + 1) = qt := by
              have h' : (dollarPat.drop k).drop 1 = qt := by
                rw [hdk]
                rfl
              rw [List.drop_drop] at h'
              exact h'
            by_cases hk3 : k + 1 < dollarPat.length
            · have hstep : dollarPat.drop (k + 1) <+:
                  replaceAllFuel dollarPat ('/' :: dd) n rest := by
                rw [hqt]
                exact ⟨t, h2⟩
              have hrec := ih2 (k + 1) (by omega) hk3 hstep
              rw [hqt] at hrec
              obtain ⟨t', ht'⟩ := hrec
              exact ⟨t', by rw [List.cons_append, h1, ht']⟩
            · have hqtnil : qt = [] := by
                have hlq := congrArg List.length hqt
                rw [List.length_drop] at hlq
                apply List.eq_nil_of_length_eq_zero
                omega
              rw [hqtnil]
              refine ⟨rest, ?_⟩
              rw [List.cons_append, h1]
              rfl

/-- Counterexample to claim C8 as stated: for the directory key
`'$directory'` (a legal path fragment), substituting twice does not equal
substituting once — each pass rewrites the `$directory` occurrence that the
replacement text itself reintroduced. -/
theorem FormatDescriptionOrComment_not_idempotent :
    FormatDescriptionOrComment
        (FormatDescriptionOrComment (str "$directory") (str "$directory"))
        (str "$directory")
      ≠ FormatDescriptionOrComment (str "$directory") (str "$directory") := by
  decide

/-- Claim C8 (amended): the `$directory` substitution of
`FormatDescriptionOrComment` is idempotent for every template text and every
directory key that does not contain the character `'$'` (which includes every
key the partitioner can produce from `$`-free paths); the unrestricted claim
fails, see `FormatDescriptionOrComment_not_idempotent`. -/
theorem FormatDescriptionOrComment_idempotent (txt directory : Str)
    (h : '$' ∉ directory) :
    FormatDescriptionOrComment (FormatDescriptionOrComment txt directory) directory
      = FormatDescriptionOrComment txt directory := by
  have hclean :=
    (replaceAllFuel_dollar_clean directory h txt.length txt le_rfl).1
  unfold FormatDescriptionOrComment replaceAll
  exact replaceAllFuel_of_not_infix dollarPat ('/' :: directory) _ _ le_rfl hclean

/-- Witness for the amended C8 at a concrete template and directory key. -/
theorem FormatDescriptionOrComment_idempotent_witness :
    ('$' ∉ str "a/b") ∧
      FormatDescriptionOrComment
          (FormatDescriptionOrComment (str "Change files in $directory.") (str "a/b"))
          (str "a/b")
        = FormatDescriptionOrComment (str "Change files in $directory.") (str "a/b") :=
  ⟨by decide, FormatDescriptionOrComment_idempotent _ _ (by decide)⟩

/-! ## Claim C5: the bug-link check of `SplitCl` -/

/-- Match of the compiled pattern
`re.compile(r"^Bug:\s*(?:[a-zA-Z]+:)?[0-9]+", re.MULTILINE)` at the start of
one line: the literal `Bug:`, then `\s*`, then an optional `[a-zA-Z]+:`
group, then at least one digit. The greedy maximal-munch scan used here is
equivalent to the regex with backtracking because the whitespace, letter and
digit character classes are pairwise disjoint and none contains `':'`;
`bugLineMatch_iff` below proves this equivalence against the declarative
reading of the pattern. `bugTailMatch` handles the part of the line after
the keyword and the whitespace run. -/
def bugTailMatch (w : Str) : Bool :=
  match w with
  | [] => false
  | c :: _ =>
    if isDigitCh c then true
    else if w.takeWhile isAlphaCh = [] then false
    else
      match w.drop (w.takeWhile isAlphaCh).length with
      | ':' :: d :: _ => isDigitCh d
      | _ => false

/-- Match of the bug-link pattern anchored at the start of one line. -/
def bugLineMatch (l : Str) : Bool :=
  if (str "Bug:").isPrefixOf l then
    bugTailMatch ((l.drop 4).dropWhile isSpaceCh)
  else false

/-- `re.findall(bug_pattern, description)` is non-empty: in MULTILINE mode
`^` anchors at the start of the string and after every `'\n'`, that is, at
the start of each `'\n'`-separated line. -/
def descriptionHasBugLink (description : Str) : Bool :=
  (splitOnChar '\n' description).any bugLineMatch

/-- Declarative reading of the bug-link pattern on one line, as the claim
states it: the case-sensitive keyword `Bug:`, optional whitespace, an
optional alphabetic prefix ended by `':'`, then a digit (followed by an
arbitrary tail — equivalent to `[0-9]+` reaching a match). -/
def BugLinePre (l : Str) : Prop :=
  ∃ ws mid d rest,
    l = str "Bug:" ++ (ws ++ (mid ++ (d :: rest))) ∧
    (∀ c ∈ ws, isSpaceCh c = true) ∧
    (mid = [] ∨ ∃ a, mid = a ++ [':'] ∧ a ≠ [] ∧ ∀ c ∈ a, isAlphaCh c = true) ∧
    isDigitCh d = true

theorem digit_not_space {c : Char} (h : isDigitCh c = true) : isSpaceCh c = false := by
  by_contra hc
  rw [Bool.not_eq_false] at hc
  unfold isDigitCh at h
  unfold isSpaceCh at hc
  simp at h hc
  obtain ⟨h1, _⟩ := h
  rcases hc with ((((rfl | rfl) | rfl) | rfl) | rfl) | rfl <;>
    exact absurd h1 (by decide)

theorem alpha_not_space {c : Char} (h : isAlphaCh c = true) : isSpaceCh c = false := by
  by_contra hc
  rw [Bool.not_eq_false] at hc
  unfold isAlphaCh at h
  unfold isSpaceCh at hc
  simp at h hc
  rcases hc with ((((rfl | rfl) | rfl) | rfl) | rfl) | rfl <;>
    rcases h with ⟨h1, _⟩ | ⟨h1, _⟩ <;> exact absurd h1 (by decide)

theorem alpha_not_digit {c : Char} (h : isAlphaCh c = true) : isDigitCh c = false := by
  by_contra hc
  rw [Bool.not_eq_false] at hc
  unfold isAlphaCh at h
  unfold isDigitCh at hc
  simp at h hc
  obtain ⟨_, g2⟩ := hc
  rcases h with ⟨h1, _⟩ | ⟨h1, _⟩ <;> exact absurd (le_trans h1 g2) (by decide)

theorem dropWhile_append_all {p : Char → Bool} {ws : Str} {c : Char} {rest : Str}
    (hws : ∀ x ∈ ws, p x = true) (hc : p c = false) :
    (ws ++ c :: rest).dropWhile p = c :: rest := by
  induction ws with
  | nil => simp [List.dropWhile_cons, hc]
  | cons a t ih =>
    rw [List.cons_append, List.dropWhile_cons, if_pos (hws a (by simp))]
    exact ih (fun x hx => hws x (List.mem_cons_of_mem a hx))

theorem takeWhile_append_all {p : Char → Bool} {a : Str} {c : Char} {rest : Str}
    (ha : ∀ x ∈ a, p x = true) (hc : p c = false) :
    (a ++ c :: rest).takeWhile p = a := by
  induction a with
  | nil => simp [List.takeWhile_cons, hc]
  | cons x t ih =>
    rw [List.cons_append, List.takeWhile_cons, if_pos (ha x (by simp))]
    rw [ih (fun y hy => ha y (List.mem_cons_of_mem x hy))]

theorem bugTailMatch_iff (w : Str) :
    bugTailMatch w = true ↔
      ∃ mid d rest, w = mid ++ (d :: rest) ∧
        (mid = [] ∨ ∃ a, mid = a ++ [':'] ∧ a ≠ [] ∧ ∀ c ∈ a, isAlphaCh c = true) ∧
        isDigitCh d = true := by
  constructor
  · intro h
    cases w with
    | nil => simp [bugTailMatch] at h
    | cons c w' =>
      simp only [bugTailMatch] at h
      by_cases hdig : isDigitCh c = true
      · exact ⟨[], c, w', by simp, Or.inl rfl, hdig⟩
      · rw [if_neg hdig] at h
        split at h
        · simp at h
        · rename_i hane
          split at h
          · rename_i d drest heq
            set a := (c :: w').takeWhile isAlphaCh with ha
            have hpre : a <+: (c :: w') := ha ▸ List.takeWhile_prefix _
            obtain ⟨t2, ht2⟩ := hpre
            have hdropeq : (c :: w').drop a.length = t2 := by
              rw [← ht2]
              exact List.drop_left _ _
            rw [hdropeq] at heq
            subst heq
            refine ⟨a ++ [':'], d, drest, ?_, ?_, h⟩
            · rw [← ht2]
              simp
            · refine Or.inr ⟨a, rfl, hane, fun x hx => ?_⟩
              rw [ha] at hx
              exact List.mem_takeWhile_imp hx
          · simp at h
  · rintro ⟨mid, d, rest, rfl, hmid, hd⟩
    rcases hmid with rfl | ⟨a, rfl, hane, halpha⟩
    · simp only [List.nil_append]
      simp [bugTailMatch, hd]
    · obtain ⟨a0, a', rfl⟩ : ∃ a0 a', a = a0 :: a' := by
        cases a with
        | nil => exact absurd rfl hane
        | cons x xs => exact ⟨x, xs, rfl⟩
      rw [show ((a0 :: a') ++ [':']) ++ (d :: rest)
          = a0 :: (a' ++ ':' :: (d :: rest)) from by simp]
      simp only [bugTailMatch]
      have ha0 : isAlphaCh a0 = true := halpha a0 (by simp)
      rw [if_neg (by rw [alpha_not_digit ha0]; simp)]
      have htw : (a0 :: (a' ++ ':' :: (d :: rest))).takeWhile isAlphaCh
          = a0 :: a' := by
        have h1 : ((a0 :: a') ++ ':' :: (d :: rest)).takeWhile isAlphaCh
            = a0 :: a' := takeWhile_append_all halpha (by decide)
        simpa using h1
      rw [htw]
      rw [if_neg (by simp)]
      have hdropc : (a0 :: (a' ++ ':' :: (d :: rest))).drop
          (a0 :: a').length = ':' :: d :: rest := by
        rw [show a0 :: (a' ++ ':' :: (d :: rest))
            = (a0 :: a') ++ ':' :: d :: rest from by simp]
        exact List.drop_left _ _
      rw [hdropc]
      exact hd

theorem bugLineMatch_iff (l : Str) : bugLineMatch l = true ↔ BugLinePre l := by
  unfold bugLineMatch
  constructor
  · intro h
    split at h
    · rename_i hpre
      obtain ⟨t, ht⟩ := List.isPrefixOf_iff_prefix.mp hpre
      have hdrop : l.drop 4 = t := by
        rw [← ht, show (4 : Nat) = (str "Bug:").length from by decide]
        exact List.drop_left _ _
      rw [hdrop] at h
      obtain ⟨mid, d, rest, hteq, hmid, hd⟩ := (bugTailMatch_iff _).mp h
      refine ⟨t.takeWhile isSpaceCh, mid, d, rest, ?_,
        fun c hc => List.mem_takeWhile_imp hc, hmid, hd⟩
      rw [← ht]
      congr 1
      rw [← hteq]
      exact (List.takeWhile_append_dropWhile _ _).symm
    · simp at h
  · rintro ⟨ws, mid, d, rest, rfl, hws, hmid, hd⟩
    have hpre : (str "Bug:").isPrefixOf
        (str "Bug:" ++ (ws ++ (mid ++ (d :: rest)))) = true :=
      List.isPrefixOf_iff_prefix.mpr ⟨_, rfl⟩
    rw [if_pos hpre]
    have hdrop : (str "Bug:" ++ (ws ++ (mid ++ (d :: rest)))).drop 4
        = ws ++ (mid ++ (d :: rest)) := by
      rw [show (4 : Nat) = (str "Bug:").length from by decide]
      exact List.drop_left _ _
    rw [hdrop]
    apply (bugTailMatch_iff _).mpr
    have hnd : ∃ c0 t0, mid ++ (d :: rest) = c0 :: t0 ∧ isSpaceCh c0 = false := by
      rcases hmid with rfl | ⟨a, rfl, hane, halpha⟩
      · exact ⟨d, rest, by simp, digit_not_space hd⟩
      · cases a with
        | nil => exact absurd rfl hane
        | cons a0 a' =>
          exact ⟨a0, a' ++ ':' :: d :: rest, by simp,
            alpha_not_space (halpha a0 (by simp))⟩
    obtain ⟨c0, t0, heq0, hns⟩ := hnd
    rw [heq0, dropWhile_append_all hws hns, ← heq0]
    exact ⟨mid, d, rest, rfl, hmid, hd⟩

/-- Claim C5: the bug-link check matches a description exactly when some
`'\n'`-separated line of it starts with the case-sensitive keyword `Bug:`
followed by optional whitespace, an optional alphabetic prefix ended by
`':'`, and at least one digit; in particular the description
`"Fix crash\n\nBug: chromium:123"` matches while `"Fix crash"` does not
(and so, in `SplitCl`, falls into the branch that asks for interactive
confirmation). -/
theorem SplitCl_bug_link_check (description : Str) :
    (descriptionHasBugLink description = true ↔
      ∃ l ∈ splitOnChar '\n' description, BugLinePre l) ∧
    descriptionHasBugLink (str "Fix crash\n\nBug: chromium:123") = true ∧
    descriptionHasBugLink (str "Fix crash") = false := by
  refine ⟨?_, by decide, by decide⟩
  rw [descriptionHasBugLink, List.any_eq_true]
  constructor
  · rintro ⟨x, hx, hm⟩
    exact ⟨x, hx, (bugLineMatch_iff x).mp hm⟩
  · rintro ⟨x, hx, hm⟩
    exact ⟨x, hx, (bugLineMatch_iff x).mpr hm⟩

/-! ## Claim C7: the provenance trailer of `AddUploadedByGitClSplitToDescription` -/

/-- `str.splitlines()` for `'\n'`-separated text (other line terminators are
not modelled): like `split('\n')` but without the trailing empty line when
the text ends in `'\n'`, and `[]` for the empty string. -/
def splitlinesNl (s : Str) : List Str :=
  if s = [] then []
  else if s.getLast? = some '\n' then (splitOnChar '\n' s).dropLast
  else splitOnChar '\n' s

/-- `line.isspace()`: non-empty and all whitespace. -/
def pyIsSpace (s : Str) : Bool := decide (s ≠ []) && s.all isSpaceCh

/-- Modelled from the spec: `git_footers.split_footers` is not part of this
repository's source; the spec describes footers as "structured trailing
metadata lines". A footer line is `Key: …` with a non-empty
alphanumeric-or-dash key. -/
def isFooterLine (l : Str) : Bool :=
  let key := l.takeWhile (fun c => isAlphaCh c || isDigitCh c || c = '-')
  decide (key ≠ []) && decide ((l.drop key.length).head? = some ':')

/-- Modelled from the spec: split a message into its non-footer lines and
the maximal trailing run of footer lines. -/
def split_footers (message : Str) : List Str × List Str :=
  let ls := splitlinesNl message
  let fts := (ls.reverse.takeWhile isFooterLine).reverse
  (ls.take (ls.length - fts.length), fts)

/-- The provenance trailer line added by `git cl split`. -/
def trailerLine : Str := str "This CL was uploaded by git cl split."

/-- The line list built by `AddUploadedByGitClSplitToDescription`: a blank
line when the last pre-footer line is non-blank, then the trailer, then the
footers preceded by a blank line when present. -/
def addUploadedLines (pre fts : List Str) (last : Str) : List Str :=
  ((if last ≠ [] ∧ pyIsSpace last = false then pre ++ [[]] else pre)
      ++ [trailerLine])
    ++ (if fts ≠ [] then [] :: fts else [])

/-- `AddUploadedByGitClSplitToDescription(description)`: insert the trailer
line before the footers, preceded by a blank line when the pre-footer text
does not already end in a blank/whitespace line, or append it at the end when
there are no footers. `none` models the `IndexError` that `lines[-1]` raises
when the pre-footer line list is empty (in particular, for an empty
description). -/
def AddUploadedByGitClSplitToDescription (description : Str) : Option Str :=
  match split_footers description with
  | ([], _) => none
  | (l0 :: ls0, fts) =>
    some (joinWith '\n'
      (addUploadedLines (l0 :: ls0) fts ((l0 :: ls0).getLast (List.cons_ne_nil _ _))))

theorem not_nl_mem_splitlinesNl (s : Str) : ∀ l ∈ splitlinesNl s, '\n' ∉ l := by
  intro l hl
  unfold splitlinesNl at hl
  split at hl
  · cases hl
  · split at hl
    · exact not_sep_mem_splitOnChar '\n' s l ((List.dropLast_sublist _).subset hl)
    · exact not_sep_mem_splitOnChar '\n' s l hl

theorem split_footers_append (message : Str) :
    (split_footers message).1 ++ (split_footers message).2
      = splitlinesNl message := by
  unfold split_footers
  simp only
  set ls := splitlinesNl message with hls
  set fts := (ls.reverse.takeWhile isFooterLine).reverse with hfts
  obtain ⟨t, ht⟩ : ls.reverse.takeWhile isFooterLine <+: ls.reverse :=
    List.takeWhile_prefix _
  have hrev : ls = t.reverse ++ fts := by
    rw [hfts]
    have h2 := congrArg List.reverse ht
    simpa using h2.symm
  have hlen : ls.length - fts.length = t.reverse.length := by
    have h3 := congrArg List.length hrev
    simp at h3 ⊢
    omega
  rw [hlen]
  conv_lhs => rw [hrev]
  rw [List.take_left]
  exact hrev.symm

theorem isFooterLine_mem_footers {message : Str} {l : Str}
    (h : l ∈ (split_footers message).2) : isFooterLine l = true := by
  unfold split_footers at h
  simp only at h
  rw [List.mem_reverse] at h
  exact List.mem_takeWhile_imp h

theorem ne_nil_of_isFooterLine {l : Str} (h : isFooterLine l = true) : l ≠ [] := by
  intro heq
  subst heq
  exact absurd h (by decide)

theorem footers_subset_splitlines {message : Str} {l : Str}
    (h : l ∈ (split_footers message).2) : l ∈ splitlinesNl message := by
  rw [← split_footers_append message]
  exact List.mem_append.mpr (Or.inr h)

theorem pre_subset_splitlines {message : Str} {l : Str}
    (h : l ∈ (split_footers message).1) : l ∈ splitlinesNl message := by
  rw [← split_footers_append message]
  exact List.mem_append.mpr (Or.inl h)

theorem getLast?_joinWith (sep : Char) :
    ∀ (L : List Str), L ≠ [] → (∀ l ∈ L, sep ∉ l) → L.getLast? ≠ some [] →
      ∃ c, (joinWith sep L).getLast? = some c ∧ c ≠ sep := by
  intro L
  induction L with
  | nil => intro h _ _; exact absurd rfl h
  | cons x rest ih =>
    intro _ hsep hlast
    cases rest with
    | nil =>
      have hx : x ≠ [] := by
        intro hx
        apply hlast
        rw [hx]
        rfl
      obtain ⟨c, hc⟩ := Option.isSome_iff_exists.mp (List.getLast?_isSome.mpr hx)
      refine ⟨c, hc, ?_⟩
      intro hceq
      exact hsep x (by simp) (hceq ▸ mem_of_getLast?_eq hc)
    | cons y t =>
      have hrec := ih (by simp)
        (fun l hl => hsep l (List.mem_cons_of_mem x hl))
        (by rw [← List.getLast?_cons_cons (a := x)]; exact hlast)
      obtain ⟨c, hc, hcne⟩ := hrec
      have hJne : joinWith sep (y :: t) ≠ [] := by
        intro hj
        rw [hj] at hc
        cases hc
      refine ⟨c, ?_, hcne⟩
      show ((x ++ sep :: joinWith sep (y :: t))).getLast? = some c
      rw [List.getLast?_append, getLast?_cons_of_ne hJne, hc]
      rfl

theorem splitlinesNl_joinWith (L : List Str) (hne : L ≠ [])
    (hnl : ∀ l ∈ L, '\n' ∉ l) (hlast : L.getLast? ≠ some []) :
    splitlinesNl (joinWith '\n' L) = L := by
  obtain ⟨c, hc, hcne⟩ := getLast?_joinWith '\n' L hne hnl hlast
  have hsne : joinWith '\n' L ≠ [] := by
    intro hj
    rw [hj] at hc
    cases hc
  unfold splitlinesNl
  rw [if_neg hsne, if_neg (by rw [hc]; intro hcc; injection hcc with hcc; exact hcne hcc)]
  exact splitOnChar_joinWith '\n' L hne hnl

theorem addUploadedLines_eq (pre fts : List Str) (last : Str) :
    ∃ pad, (pad = [] ∨ pad = [[]]) ∧
      addUploadedLines pre fts last
        = (pre ++ pad) ++
          ([trailerLine] ++ (if fts = [] then [] else [] :: fts)) := by
  unfold addUploadedLines
  by_cases hcond : last ≠ [] ∧ pyIsSpace last = false
  · refine ⟨[[]], Or.inr rfl, ?_⟩
    rw [if_pos hcond]
    by_cases hf : fts = []
    · subst hf
      simp
    · simp [hf, List.append_assoc]
  · refine ⟨[], Or.inl rfl, ?_⟩
    rw [if_neg hcond]
    by_cases hf : fts = []
    · subst hf
      simp
    · simp [hf, List.append_assoc]

/-- Counterexample to claim C7 as stated: on the empty description the
rewrite does not append the trailer at all — `lines[-1]` raises `IndexError`
(modelled as `none`), because the pre-footer line list of the empty
description is empty. -/
theorem AddUploadedBy_empty_description_crashes :
    AddUploadedByGitClSplitToDescription (str "") = none := by decide

/-- Claim C7 (amended): for every description whose pre-footer line list is
non-empty (every description the tool can process without crashing), the
rewrite appends the provenance trailer line exactly once — the trailer count
of the output lines is one more than in the input — and it is positioned
after the pre-footer lines (plus an optional inserted blank line) and
immediately before the footer block (separated by the blank line the source
inserts) when footers are present, or at the end otherwise. -/
theorem AddUploadedBy_trailer (description out : Str)
    (h : AddUploadedByGitClSplitToDescription description = some out) :
    ∃ pad, (pad = [] ∨ pad = [[]]) ∧
      splitlinesNl out
        = ((split_footers description).1 ++ pad) ++
          ([trailerLine] ++
            (if (split_footers description).2 = [] then []
             else [] :: (split_footers description).2)) ∧
      (splitlinesNl out).count trailerLine
        = (splitlinesNl description).count trailerLine + 1 := by
  unfold AddUploadedByGitClSplitToDescription at h
  rcases hsf : split_footers description with ⟨pre, fts⟩
  rw [hsf] at h
  cases pre with
  | nil => exact Option.noConfusion h
  | cons l0 ls0 =>
    replace h : some (joinWith '\n'
        (addUploadedLines (l0 :: ls0) fts
          ((l0 :: ls0).getLast (List.cons_ne_nil _ _)))) = some out := h
    have hout := (Option.some.inj h).symm
    obtain ⟨pad, hpad, hlines⟩ :=
      addUploadedLines_eq (l0 :: ls0) fts
        ((l0 :: ls0).getLast (List.cons_ne_nil _ _))
    set L := ((l0 :: ls0) ++ pad) ++
      ([trailerLine] ++ (if fts = [] then [] else [] :: fts)) with hL
    have hpadnl : ∀ l ∈ pad, '\n' ∉ l := by
      rcases hpad with rfl | rfl
      · intro l hl
        cases hl
      · intro l hl
        rcases List.mem_singleton.mp hl with rfl
        simp
    have hnl : ∀ l ∈ L, '\n' ∉ l := by
      intro l hl
      rw [hL] at hl
      rcases List.mem_append.mp hl with h1 | h2
      · rcases List.mem_append.mp h1 with h3 | h4
        · exact not_nl_mem_splitlinesNl description l
            (pre_subset_splitlines (l := l) (by rw [hsf]; exact h3))
        · exact hpadnl l h4
      · rcases List.mem_append.mp h2 with h3 | h4
        · rcases List.mem_singleton.mp h3 with rfl
          decide
        · split at h4
          · cases h4
          · rcases List.mem_cons.mp h4 with rfl | h5
            · simp
            · exact not_nl_mem_splitlinesNl description l
                (footers_subset_splitlines (l := l) (by rw [hsf]; exact h5))
    have hLne : L ≠ [] := by
      rw [hL]
      simp
    have hLlast : L.getLast? ≠ some [] := by
      rw [hL]
      by_cases hf : fts = []
      · rw [if_pos hf]
        rw [List.getLast?_append]
        intro hc
        rw [show ([trailerLine] ++ ([] : List Str)).getLast?
            = some trailerLine from by decide] at hc
        simp at hc
        exact absurd hc.symm (by decide)
      · rw [if_neg hf]
        rw [List.getLast?_append]
        have hfl : ([trailerLine] ++ [] :: fts).getLast? = fts.getLast? := by
          have h1 : ([] :: fts).getLast? = fts.getLast? := getLast?_cons_of_ne hf
          have h2 : (trailerLine :: [] :: fts).getLast? = ([] :: fts).getLast? :=
            getLast?_cons_of_ne (by simp)
          rw [show [trailerLine] ++ [] :: fts = trailerLine :: [] :: fts from rfl,
            h2, h1]
        rw [hfl]
        obtain ⟨e, he⟩ := Option.isSome_iff_exists.mp
          (List.getLast?_isSome.mpr hf)
        rw [he]
        intro hc
        rw [show (some e).or _ = some e from rfl] at hc
        injection hc with hc
        subst hc
        exact ne_nil_of_isFooterLine
          (isFooterLine_mem_footers (by rw [hsf]; exact mem_of_getLast?_eq he))
          rfl
    have hsl : splitlinesNl out = L := by
      rw [hout, hlines]
      exact splitlinesNl_joinWith L hLne hnl hLlast
    refine ⟨pad, hpad, ?_, ?_⟩
    · rw [hsl, hL]
    · rw [hsl]
      have hd : splitlinesNl description = (l0 :: ls0) ++ fts := by
        rw [← split_footers_append description, hsf]
      rw [hd, hL]
      rw [List.count_append, List.count_append, List.count_append]
      have hpadc : pad.count trailerLine = 0 := by
        rcases hpad with rfl | rfl
        · rfl
        · decide
      have htailc : (if fts = [] then ([] : List Str) else [] :: fts).count
          trailerLine = fts.count trailerLine := by
        by_cases hf : fts = []
        · subst hf
          simp
        · rw [if_neg hf, List.count_cons]
          simp [show (([] : Str) == trailerLine) = false from by decide]
      rw [hpadc, htailc, List.count_append]
      have htc : [trailerLine].count trailerLine = 1 := by decide
      rw [htc]
      omega

/-- Witness for the amended C7 at a concrete description with one body line
and one footer. -/
theorem AddUploadedBy_trailer_witness :
    (splitlinesNl (str "x\n\nThis CL was uploaded by git cl split.\n\nBug: 12")).count
        trailerLine
      = (splitlinesNl (str "x\n\nBug: 12")).count trailerLine + 1 := by
  obtain ⟨pad, hpad, heq, hcount⟩ :=
    AddUploadedBy_trailer (str "x\n\nBug: 12")
      (str "x\n\nThis CL was uploaded by git cl split.\n\nBug: 12") (by rfl)
  exact hcount

/-! ## The per-group publish workflow (`CreateBranchForDirectory`, `UploadCl`) -/

/-- Side effects and console I/O of the external git / review clients. A
trace of `Eff` values records, in order, every externally visible operation
a run performs. -/
inductive Eff where
  | print (msg : Str)
  | ask (msg : Str)
  | createBranch (name upstream : Str)
  | gitRm (paths : List Str)
  | checkoutFiles (branch : Str) (paths : List Str)
  | commit (message : Str)
  | upload (args : List Str)
  | addComment (text : Str) (publish : Bool)
  | checkoutBranch (branch : Str)
  deriving DecidableEq

/-- Effects that mutate repository or review state — everything except
console output and prompts. -/
def Eff.isSideEffect : Eff → Bool
  | .print _ => false
  | .ask _ => false
  | _ => true

/-- Console print effects. -/
def Eff.isPrintEff : Eff → Bool
  | .print _ => true
  | _ => false

/-- The git state a run threads: the existing branches and the currently
checked-out branch. -/
structure GitSt where
  branches : List Str
  current : Str
  deriving DecidableEq

/-- Python truthiness of an optional string (`None` and `''` are falsy). -/
def pyTruthy (o : Option Str) : Bool :=
  match o with
  | none => false
  | some s => decide (s ≠ [])

/-- The branch name built by `CreateBranchForDirectory`:
`prefix + '_' + directory + '_split'`. -/
def branchNameFor (pre directory : Str) : Str :=
  pre ++ '_' :: (directory ++ str "_split")

/-- `CreateBranchForDirectory(prefix, directory, upstream)`: returns `false`
without side effects when the branch already exists; otherwise creates and
checks out the branch tracking `upstream`. -/
def CreateBranchForDirectory (pre directory upstream : Str) (st : GitSt) :
    Bool × GitSt × List Eff :=
  let branch_name := branchNameFor pre directory
  if branch_name ∈ st.branches then (false, st, [])
  else (true, ⟨st.branches ++ [branch_name], branch_name⟩,
    [Eff.createBranch branch_name upstream])

/-- The `upload_args` flag list built by `UploadCl`: force, reviewers,
cq-dry-run, send-mail only when no comment is configured, auto-submit,
topic. -/
def uploadArgsFor (reviewers : List Str) (cq_dry_run : Bool)
    (comment : Option Str) (enable_auto_submit : Bool) (topic : Option Str) :
    List Str :=
  [str "-f"]
    ++ (if reviewers ≠ [] then [str "-r", joinWith ',' reviewers] else [])
    ++ (if cq_dry_run then [str "--cq-dry-run"] else [])
    ++ (if pyTruthy comment then [] else [str "--send-mail"])
    ++ (if enable_auto_submit then [str "--enable-auto-submit"] else [])
    ++ (match topic with
        | some t => if t ≠ [] then [str "--topic=" ++ t] else []
        | none => [])

/-- `UploadCl(...)`: the per-group workflow — skip when the branch exists,
else create the branch, remove deleted files, check out the other files from
the refactor branch, commit with the substituted description, upload, report
a failed upload, and post the comment when configured. `cmd_upload` is the
external upload call, an oracle from the upload flags to its exit code.
Returns the new git state and the effect trace. -/
def UploadCl (refactor_branch refactor_branch_upstream directory : Str)
    (files : List (Str × Str)) (description : Str) (comment : Option Str)
    (reviewers : List Str) (cmd_upload : List Str → Int)
    (cq_dry_run enable_auto_submit : Bool) (topic : Option Str)
    (repository_root cwd : Str) (st : GitSt) : GitSt × List Eff :=
  match CreateBranchForDirectory refactor_branch directory
      refactor_branch_upstream st with
  | (false, st1, effs) =>
    (st1, effs ++ [Eff.print (str "Skipping " ++ directory ++
      str " for which a branch already exists.")])
  | (true, st1, effs) =>
    let deleted_files := (files.filter (fun af => af.1 = str "D")).map
      (fun af => abspathL cwd (pyJoin repository_root af.2))
    let modified_files := (files.filter (fun af => ¬ af.1 = str "D")).map
      (fun af => abspathL cwd (pyJoin repository_root af.2))
    let upload_args :=
      uploadArgsFor reviewers cq_dry_run comment enable_auto_submit topic
    (st1, effs
      ++ ((if deleted_files ≠ [] then [Eff.gitRm deleted_files] else [])
        ++ (if modified_files ≠ [] then
            [Eff.checkoutFiles refactor_branch modified_files] else []))
      ++ [Eff.commit (FormatDescriptionOrComment description directory)]
      ++ [Eff.print (str "Uploading CL for " ++ directory ++ str "...")]
      ++ [Eff.upload upload_args]
      ++ (if cmd_upload upload_args ≠ 0 then
          [Eff.print (str "Uploading failed for " ++ directory ++ str "."),
           Eff.print (str "Note: git cl split has built-in resume capabilities."),
           Eff.print (str "Delete " ++ st1.current ++
             str " then run git cl split again to resume uploading.")]
        else [])
      ++ (match comment with
          | some c =>
            if c ≠ [] then
              [Eff.addComment (FormatDescriptionOrComment c directory) true]
            else []
          | none => []))

/-- Claim C3: when the publish branch for a group already exists, `UploadCl`
only reports the skip — the git state is unchanged and the trace holds no
side effect at all (no branch creation, no working-tree change, no commit,
no upload, no comment); a branch created by an earlier run is therefore
never recreated on a rerun with the same prefix and directory. -/
theorem UploadCl_skips_existing_branch (refactor_branch upstream directory : Str)
    (gfiles : List (Str × Str)) (description : Str) (comment : Option Str)
    (reviewers : List Str) (cmd_upload : List Str → Int)
    (cq_dry_run enable_auto_submit : Bool) (topic : Option Str)
    (repository_root cwd : Str) (st : GitSt)
    (h : branchNameFor refactor_branch directory ∈ st.branches) :
    (UploadCl refactor_branch upstream directory gfiles description comment
        reviewers cmd_upload cq_dry_run enable_auto_submit topic
        repository_root cwd st).1 = st ∧
    ∀ e ∈ (UploadCl refactor_branch upstream directory gfiles description
        comment reviewers cmd_upload cq_dry_run enable_auto_submit topic
        repository_root cwd st).2, e.isSideEffect = false := by
  have hc : CreateBranchForDirectory refactor_branch directory upstream st
      = (false, st, []) := by
    unfold CreateBranchForDirectory
    rw [if_pos h]
  unfold UploadCl
  rw [hc]
  refine ⟨rfl, ?_⟩
  intro e he
  simp at he
  subst he
  rfl

theorem any_eq_false_of_forall {α : Type} {p : α → Bool} {l : List α}
    (h : ∀ e ∈ l, p e = false) : l.any p = false := by
  rw [← Bool.not_eq_true, List.any_eq_true]
  rintro ⟨x, hx, hb⟩
  rw [h x hx] at hb
  cases hb

/-- Witness for C3 at a concrete state whose branch list already holds the
group's branch name. -/
theorem UploadCl_skips_existing_branch_witness :
    (UploadCl (str "b") (str "u") (str "d") [(str "M", str "d/x.txt")]
        (str "desc") none [] (fun _ => 0) false false none (str "/repo")
        (str "/repo") ⟨[branchNameFor (str "b") (str "d")], str "b"⟩).1
      = ⟨[branchNameFor (str "b") (str "d")], str "b"⟩ ∧
    ((UploadCl (str "b") (str "u") (str "d") [(str "M", str "d/x.txt")]
        (str "desc") none [] (fun _ => 0) false false none (str "/repo")
        (str "/repo") ⟨[branchNameFor (str "b") (str "d")], str "b"⟩).2.any
      Eff.isSideEffect) = false :=
  ⟨(UploadCl_skips_existing_branch _ _ _ _ _ _ _ _ _ _ _ _ _ _ (by simp)).1,
    any_eq_false_of_forall
      (UploadCl_skips_existing_branch _ _ _ _ _ _ _ _ _ _ _ _ _ _ (by simp)).2⟩


/-! ## Claim C10: deletions vs. modifications in `UploadCl` -/

/-- All paths passed to `git rm` across a trace. -/
def rmPathsOf (es : List Eff) : List Str :=
  (es.map (fun e =>
    match e with
    | Eff.gitRm ps => ps
    | _ => [])).flatten

/-- All paths passed to `git checkout <branch> --` across a trace. -/
def checkoutPathsOf (es : List Eff) : List Str :=
  (es.map (fun e =>
    match e with
    | Eff.checkoutFiles _ ps => ps
    | _ => [])).flatten

theorem rmPathsOf_append (a b : List Eff) :
    rmPathsOf (a ++ b) = rmPathsOf a ++ rmPathsOf b := by
  simp [rmPathsOf]

theorem checkoutPathsOf_append (a b : List Eff) :
    checkoutPathsOf (a ++ b) = checkoutPathsOf a ++ checkoutPathsOf b := by
  simp [checkoutPathsOf]

/-- The effect trace of `UploadCl` when the group's branch does not exist
yet. -/
theorem UploadCl_trace_of_free (refactor_branch upstream directory : Str)
    (gfiles : List (Str × Str)) (description : Str) (comment : Option Str)
    (reviewers : List Str) (cmd_upload : List Str → Int)
    (cq_dry_run enable_auto_submit : Bool) (topic : Option Str)
    (repository_root cwd : Str) (st : GitSt)
    (hfree : branchNameFor refactor_branch directory ∉ st.branches) :
    (UploadCl refactor_branch upstream directory gfiles description comment
        reviewers cmd_upload cq_dry_run enable_auto_submit topic
        repository_root cwd st).2
      = [Eff.createBranch (branchNameFor refactor_branch directory) upstream]
        ++ ((if (gfiles.filter (fun af => af.1 = str "D")).map
              (fun af => abspathL cwd (pyJoin repository_root af.2)) ≠ [] then
              [Eff.gitRm ((gfiles.filter (fun af => af.1 = str "D")).map
                (fun af => abspathL cwd (pyJoin repository_root af.2)))]
            else [])
          ++ (if (gfiles.filter (fun af => ¬ af.1 = str "D")).map
              (fun af => abspathL cwd (pyJoin repository_root af.2)) ≠ [] then
              [Eff.checkoutFiles refactor_branch
                ((gfiles.filter (fun af => ¬ af.1 = str "D")).map
                  (fun af => abspathL cwd (pyJoin repository_root af.2)))]
            else []))
        ++ [Eff.commit (FormatDescriptionOrComment description directory)]
        ++ [Eff.print (str "Uploading CL for " ++ directory ++ str "...")]
        ++ [Eff.upload (uploadArgsFor reviewers cq_dry_run comment
            enable_auto_submit topic)]
        ++ (if cmd_upload (uploadArgsFor reviewers cq_dry_run comment
              enable_auto_submit topic) ≠ 0 then
            [Eff.print (str "Uploading failed for " ++ directory ++ str "."),
             Eff.print (str "Note: git cl split has built-in resume capabilities."),
             Eff.print (str "Delete " ++ branchNameFor refactor_branch directory ++
               str " then run git cl split again to resume uploading.")]
          else [])
        ++ (match comment with
            | some c =>
              if c ≠ [] then
                [Eff.addComment (FormatDescriptionOrComment c directory) true]
              else []
            | none => []) := by
  have hc : CreateBranchForDirectory refactor_branch directory upstream st
      = (true, ⟨st.branches ++ [branchNameFor refactor_branch directory],
          branchNameFor refactor_branch directory⟩,
        [Eff.createBranch (branchNameFor refactor_branch directory) upstream]) := by
    unfold CreateBranchForDirectory
    rw [if_neg hfree]
  unfold UploadCl
  rw [hc]

@[simp] theorem rmPathsOf_nil : rmPathsOf [] = [] := rfl

@[simp] theorem rmPathsOf_cons_print (m : Str) (es : List Eff) :
    rmPathsOf (Eff.print m :: es) = rmPathsOf es := by simp [rmPathsOf]

@[simp] theorem rmPathsOf_single_createBranch (n u : Str) :
    rmPathsOf [Eff.createBranch n u] = [] := rfl

@[simp] theorem rmPathsOf_single_commit (m : Str) :
    rmPathsOf [Eff.commit m] = [] := rfl

@[simp] theorem rmPathsOf_single_upload (a : List Str) :
    rmPathsOf [Eff.upload a] = [] := rfl

@[simp] theorem rmPathsOf_single_addComment (t : Str) (p : Bool) :
    rmPathsOf [Eff.addComment t p] = [] := rfl

@[simp] theorem rmPathsOf_single_checkoutFiles (b : Str) (ps : List Str) :
    rmPathsOf [Eff.checkoutFiles b ps] = [] := rfl

@[simp] theorem rmPathsOf_single_gitRm (ps : List Str) :
    rmPathsOf [Eff.gitRm ps] = ps := by simp [rmPathsOf]

@[simp] theorem rmPathsOf_ite (c : Prop) [Decidable c] (a b : List Eff) :
    rmPathsOf (if c then a else b)
      = if c then rmPathsOf a else rmPathsOf b := by
  split <;> rfl

@[simp] theorem checkoutPathsOf_nil : checkoutPathsOf [] = [] := rfl

@[simp] theorem checkoutPathsOf_cons_print (m : Str) (es : List Eff) :
    checkoutPathsOf (Eff.print m :: es) = checkoutPathsOf es := by
  simp [checkoutPathsOf]

@[simp] theorem checkoutPathsOf_single_createBranch (n u : Str) :
    checkoutPathsOf [Eff.createBranch n u] = [] := rfl

@[simp] theorem checkoutPathsOf_single_commit (m : Str) :
    checkoutPathsOf [Eff.commit m] = [] := rfl

@[simp] theorem checkoutPathsOf_single_upload (a : List Str) :
    checkoutPathsOf [Eff.upload a] = [] := rfl

@[simp] theorem checkoutPathsOf_single_addComment (t : Str) (p : Bool) :
    checkoutPathsOf [Eff.addComment t p] = [] := rfl

@[simp] theorem checkoutPathsOf_single_gitRm (ps : List Str) :
    checkoutPathsOf [Eff.gitRm ps] = [] := rfl

@[simp] theorem checkoutPathsOf_single_checkoutFiles (b : Str) (ps : List Str) :
    checkoutPathsOf [Eff.checkoutFiles b ps] = ps := by simp [checkoutPathsOf]

@[simp] theorem checkoutPathsOf_ite (c : Prop) [Decidable c] (a b : List Eff) :
    checkoutPathsOf (if c then a else b)
      = if c then checkoutPathsOf a else checkoutPathsOf b := by
  split <;> rfl

set_option maxHeartbeats 1000000 in
theorem rmPathsOf_UploadCl (refactor_branch upstream directory : Str)
    (gfiles : List (Str × Str)) (description : Str) (comment : Option Str)
    (reviewers : List Str) (cmd_upload : List Str → Int)
    (cq_dry_run enable_auto_submit : Bool) (topic : Option Str)
    (repository_root cwd : Str) (st : GitSt)
    (hfree : branchNameFor refactor_branch directory ∉ st.branches) :
    rmPathsOf (UploadCl refactor_branch upstream directory gfiles description
        comment reviewers cmd_upload cq_dry_run enable_auto_submit topic
        repository_root cwd st).2
      = (gfiles.filter (fun af => af.1 = str "D")).map
          (fun af => abspathL cwd (pyJoin repository_root af.2)) := by
  rw [UploadCl_trace_of_free refactor_branch upstream directory gfiles
    description comment reviewers cmd_upload cq_dry_run enable_auto_submit
    topic repository_root cwd st hfree]
  simp only [rmPathsOf_append, rmPathsOf_nil, rmPathsOf_cons_print,
    rmPathsOf_single_createBranch, rmPathsOf_single_commit,
    rmPathsOf_single_upload, rmPathsOf_single_addComment,
    rmPathsOf_single_checkoutFiles, rmPathsOf_single_gitRm, rmPathsOf_ite]
  have hcmt : rmPathsOf (match comment with
      | some c =>
        if c ≠ [] then
          [Eff.addComment (FormatDescriptionOrComment c directory) true]
        else []
      | none => []) = [] := by
    rcases comment with _ | ccc
    · rfl
    · dsimp only
      split <;> rfl
  rw [hcmt]
  simp only [ite_self, List.append_nil, List.nil_append]
  split_ifs with h1
  · rfl
  · exact (not_not.mp h1).symm

set_option maxHeartbeats 1000000 in
theorem checkoutPathsOf_UploadCl (refactor_branch upstream directory : Str)
    (gfiles : List (Str × Str)) (description : Str) (comment : Option Str)
    (reviewers : List Str) (cmd_upload : List Str → Int)
    (cq_dry_run enable_auto_submit : Bool) (topic : Option Str)
    (repository_root cwd : Str) (st : GitSt)
    (hfree : branchNameFor refactor_branch directory ∉ st.branches) :
    checkoutPathsOf (UploadCl refactor_branch upstream directory gfiles
        description comment reviewers cmd_upload cq_dry_run enable_auto_submit
        topic repository_root cwd st).2
      = (gfiles.filter (fun af => ¬ af.1 = str "D")).map
          (fun af => abspathL cwd (pyJoin repository_root af.2)) := by
  rw [UploadCl_trace_of_free refactor_branch upstream directory gfiles
    description comment reviewers cmd_upload cq_dry_run enable_auto_submit
    topic repository_root cwd st hfree]
  simp only [checkoutPathsOf_append, checkoutPathsOf_nil,
    checkoutPathsOf_cons_print, checkoutPathsOf_single_createBranch,
    checkoutPathsOf_single_commit, checkoutPathsOf_single_upload,
    checkoutPathsOf_single_addComment, checkoutPathsOf_single_gitRm,
    checkoutPathsOf_single_checkoutFiles, checkoutPathsOf_ite]
  have hcmt : checkoutPathsOf (match comment with
      | some c =>
        if c ≠ [] then
          [Eff.addComment (FormatDescriptionOrComment c directory) true]
        else []
      | none => []) = [] := by
    rcases comment with _ | ccc
    · rfl
    · dsimp only
      split <;> rfl
  rw [hcmt]
  simp only [ite_self, List.append_nil, List.nil_append]
  split_ifs with h1
  · rfl
  · exact (not_not.mp h1).symm

/-- Claim C10: when materializing a group onto its fresh publish branch, a
member file is removed from the working tree exactly when its action code is
`'D'`; every member with any other code — including renames `'R'`, copies
`'C'` and unrecognized codes — is checked out from the refactor branch
instead. Stated per input file and, conversely, for every path of the
emitted `git rm` / `git checkout` calls. -/
theorem UploadCl_deletion_split (refactor_branch upstream directory : Str)
    (gfiles : List (Str × Str)) (description : Str) (comment : Option Str)
    (reviewers : List Str) (cmd_upload : List Str → Int)
    (cq_dry_run enable_auto_submit : Bool) (topic : Option Str)
    (repository_root cwd : Str) (st : GitSt) (es : List Eff)
    (hfree : branchNameFor refactor_branch directory ∉ st.branches)
    (hes : es = (UploadCl refactor_branch upstream directory gfiles description
        comment reviewers cmd_upload cq_dry_run enable_auto_submit topic
        repository_root cwd st).2) :
    (∀ a f, (a, f) ∈ gfiles →
      (a = str "D" →
        abspathL cwd (pyJoin repository_root f) ∈ rmPathsOf es) ∧
      (a ≠ str "D" →
        abspathL cwd (pyJoin repository_root f) ∈ checkoutPathsOf es)) ∧
    (∀ p ∈ rmPathsOf es, ∃ f, (str "D", f) ∈ gfiles ∧
      p = abspathL cwd (pyJoin repository_root f)) ∧
    (∀ p ∈ checkoutPathsOf es, ∃ a f, (a, f) ∈ gfiles ∧ a ≠ str "D" ∧
      p = abspathL cwd (pyJoin repository_root f)) := by
  have hrm : rmPathsOf es = (gfiles.filter (fun af => af.1 = str "D")).map
      (fun af => abspathL cwd (pyJoin repository_root af.2)) := by
    rw [hes]
    exact rmPathsOf_UploadCl refactor_branch upstream directory gfiles
      description comment reviewers cmd_upload cq_dry_run enable_auto_submit
      topic repository_root cwd st hfree
  have hco : checkoutPathsOf es
      = (gfiles.filter (fun af => ¬ af.1 = str "D")).map
          (fun af => abspathL cwd (pyJoin repository_root af.2)) := by
    rw [hes]
    exact checkoutPathsOf_UploadCl refactor_branch upstream directory gfiles
      description comment reviewers cmd_upload cq_dry_run enable_auto_submit
      topic repository_root cwd st hfree
  refine ⟨?_, ?_, ?_⟩
  · intro a f hmem
    constructor
    · intro ha
      rw [hrm]
      exact List.mem_map.mpr ⟨(a, f),
        List.mem_filter.mpr ⟨hmem, by simp [ha]⟩, rfl⟩
    · intro ha
      rw [hco]
      exact List.mem_map.mpr ⟨(a, f),
        List.mem_filter.mpr ⟨hmem, by simp [ha]⟩, rfl⟩
  · intro p hp
    rw [hrm] at hp
    obtain ⟨af, haf, rfl⟩ := List.mem_map.mp hp
    obtain ⟨hmem, hpred⟩ := List.mem_filter.mp haf
    obtain ⟨a', f'⟩ := af
    simp at hpred
    subst hpred
    exact ⟨f', hmem, rfl⟩
  · intro p hp
    rw [hco] at hp
    obtain ⟨af, haf, rfl⟩ := List.mem_map.mp hp
    obtain ⟨hmem, hpred⟩ := List.mem_filter.mp haf
    obtain ⟨a', f'⟩ := af
    simp at hpred
    exact ⟨a', f', hmem, hpred, rfl⟩

/-- Witness for C10 at a concrete group containing a modification, a
deletion, a rename and an unrecognized action code. -/
theorem UploadCl_deletion_split_witness :
    abspathL (str "/repo") (pyJoin (str "/repo") (str "a/y.txt")) ∈ rmPathsOf
      (UploadCl (str "b") (str "u") (str "a")
        [(str "M", str "a/x.txt"), (str "D", str "a/y.txt"),
         (str "R", str "a/z.txt"), (str "?", str "a/w.txt")]
        (str "desc") none [] (fun _ => 0) false false none (str "/repo")
        (str "/repo") ⟨[], str "b"⟩).2 ∧
    abspathL (str "/repo") (pyJoin (str "/repo") (str "a/x.txt")) ∈
      checkoutPathsOf (UploadCl (str "b") (str "u") (str "a")
        [(str "M", str "a/x.txt"), (str "D", str "a/y.txt"),
         (str "R", str "a/z.txt"), (str "?", str "a/w.txt")]
        (str "desc") none [] (fun _ => 0) false false none (str "/repo")
        (str "/repo") ⟨[], str "b"⟩).2 ∧
    abspathL (str "/repo") (pyJoin (str "/repo") (str "a/z.txt")) ∈
      checkoutPathsOf (UploadCl (str "b") (str "u") (str "a")
        [(str "M", str "a/x.txt"), (str "D", str "a/y.txt"),
         (str "R", str "a/z.txt"), (str "?", str "a/w.txt")]
        (str "desc") none [] (fun _ => 0) false false none (str "/repo")
        (str "/repo") ⟨[], str "b"⟩).2 ∧
    abspathL (str "/repo") (pyJoin (str "/repo") (str "a/w.txt")) ∈
      checkoutPathsOf (UploadCl (str "b") (str "u") (str "a")
        [(str "M", str "a/x.txt"), (str "D", str "a/y.txt"),
         (str "R", str "a/z.txt"), (str "?", str "a/w.txt")]
        (str "desc") none [] (fun _ => 0) false false none (str "/repo")
        (str "/repo") ⟨[], str "b"⟩).2 := by
  obtain ⟨hper, hrm, hco⟩ := UploadCl_deletion_split (str "b") (str "u")
    (str "a")
    [(str "M", str "a/x.txt"), (str "D", str "a/y.txt"),
     (str "R", str "a/z.txt"), (str "?", str "a/w.txt")]
    (str "desc") none [] (fun _ => 0) false false none (str "/repo")
    (str "/repo") ⟨[], str "b"⟩ _ (by simp) rfl
  exact ⟨(hper (str "D") (str "a/y.txt") (by simp)).1 rfl,
    (hper (str "M") (str "a/x.txt") (by simp)).2 (by decide),
    (hper (str "R") (str "a/z.txt") (by simp)).2 (by decide),
    (hper (str "?") (str "a/w.txt") (by simp)).2 (by decide)⟩

/-! ## The orchestrator (`SplitCl`) and its safety gates -/

/-- `CL_SPLIT_FORCE_LIMIT`: above this many CLs, a cq-dry-run run asks for
confirmation. -/
def CL_SPLIT_FORCE_LIMIT : Nat := 10

/-- The fan-out warning printed before the confirmation prompt. -/
def fanoutWarning (num_cls : Nat) : Str :=
  str "This will generate \x22" ++ natToStr num_cls ++
    str "\x22 CLs. This many CLs can potentially generate too much load on the build infrastructure. Please email infra-dev@chromium.org to ensure that this won't  break anything. The infra team reserves the right to cancel your jobs if they are overloading the CQ."

/-- The prompt text of the fan-out confirmation. -/
def fanoutPromptStr : Str := str "Proceed? (y/n):"

/-- The prompt text of the bug-link confirmation. -/
def bugPromptStr : Str :=
  str "Description does not include a bug link. Proceed? (y/n):"

/-- `PrintClInfo(...)`: dry-run console output for one CL. -/
def PrintClInfo (cl_index num_cls : Nat) (directory : Str)
    (file_paths : List Str) (description : Str) (reviewers : List Str)
    (enable_auto_submit : Bool) (topic : Option Str) : List Eff :=
  let description_lines :=
    splitlinesNl (FormatDescriptionOrComment description directory)
  let indented_description :=
    joinWith '\n' (description_lines.map (fun l => str "    " ++ l))
  [Eff.print (str "CL " ++ natToStr cl_index ++ ['/'] ++ natToStr num_cls),
   Eff.print (str "Path: " ++ directory),
   Eff.print (str "Reviewers: " ++ List.intercalate (str ", ") reviewers),
   Eff.print (str "Auto-Submit: " ++
     (if enable_auto_submit then str "True" else str "False")),
   Eff.print (str "Topic: " ++
     (match topic with | none => str "None" | some t => t)),
   Eff.print (['\n'] ++ indented_description ++ ['\n']),
   Eff.print (joinWith '\n' file_paths),
   Eff.print []]

/-- The per-group loop of `SplitCl`: for each ownership group print the CL
info (dry run) or run `UploadCl`, threading the git state. `cmd_upload`
takes the group directory as an extra argument, modelling that the external
upload call acts on whatever repository state is current when it runs. Under
POSIX `os.path.sep = '/'`, so the `directory.replace(os.path.sep, '/')` of
the source is the identity and has no counterpart here. -/
def processGroups (refactor_branch refactor_branch_upstream description : Str)
    (comment : Option Str) (suggest : List Str → List Str)
    (cmd_upload : Str → List Str → Int)
    (dry_run cq_dry_run enable_auto_submit : Bool) (topic : Option Str)
    (repository_root cwd : Str) (num_cls : Nat) :
    List (Str × List (Str × Str)) → Nat → GitSt → GitSt × List Eff
  | [], _, st => (st, [])
  | (directory, gfiles) :: rest, cl_index, st =>
    let file_paths := gfiles.map Prod.snd
    let reviewers := suggest file_paths
    if dry_run then
      let e := PrintClInfo cl_index num_cls directory file_paths description
        reviewers enable_auto_submit topic
      let r := processGroups refactor_branch refactor_branch_upstream
        description comment suggest cmd_upload dry_run cq_dry_run
        enable_auto_submit topic repository_root cwd num_cls rest
        (cl_index + 1) st
      (r.1, e ++ r.2)
    else
      let u := UploadCl refactor_branch refactor_branch_upstream directory
        gfiles description comment reviewers (cmd_upload directory)
        cq_dry_run enable_auto_submit topic repository_root cwd st
      let r := processGroups refactor_branch refactor_branch_upstream
        description comment suggest cmd_upload dry_run cq_dry_run
        enable_auto_submit topic repository_root cwd num_cls rest
        (cl_index + 1) u.1
      (r.1, u.2 ++ r.2)

/-- The tail of `SplitCl` after both safety gates have passed: run the group
loop, then check out the original branch again as the final step. `e` is the
trace accumulated so far. -/
def SplitClAfterGates (refactor_branch refactor_branch_upstream description : Str)
    (comment : Option Str) (suggest : List Str → List Str)
    (cmd_upload : Str → List Str → Int)
    (dry_run cq_dry_run enable_auto_submit : Bool) (topic : Option Str)
    (repository_root cwd : Str) (groups : List (Str × List (Str × Str)))
    (st : GitSt) (e : List Eff) : Option (Int × List Eff) :=
  let r := processGroups refactor_branch refactor_branch_upstream description
    comment suggest cmd_upload dry_run cq_dry_run enable_auto_submit topic
    repository_root cwd groups.length groups 1 st
  some (0, e ++ r.2 ++ [Eff.checkoutBranch refactor_branch])

/-- The bug-link gate of `SplitCl`: when the (trailer-augmented) description
has no bug link, ask for confirmation; any answer other than `y`
(case-insensitive) returns exit code 0 before any group is processed. -/
def SplitClBugGate (refactor_branch refactor_branch_upstream description : Str)
    (comment : Option Str) (suggest : List Str → List Str)
    (cmd_upload : Str → List Str → Int)
    (dry_run cq_dry_run enable_auto_submit : Bool) (topic : Option Str)
    (repository_root cwd : Str) (groups : List (Str × List (Str × Str)))
    (st : GitSt) (answers : Str → Str) (e : List Eff) :
    Option (Int × List Eff) :=
  if descriptionHasBugLink description = true then
    SplitClAfterGates refactor_branch refactor_branch_upstream description
      comment suggest cmd_upload dry_run cq_dry_run enable_auto_submit topic
      repository_root cwd groups st e
  else
    let e2 := e ++ [Eff.ask bugPromptStr]
    if ¬ pyLower (answers bugPromptStr) = str "y" then some (0, e2)
    else SplitClAfterGates refactor_branch refactor_branch_upstream description
      comment suggest cmd_upload dry_run cq_dry_run enable_auto_submit topic
      repository_root cwd groups st e2

/-- `SplitCl(...)`: the orchestrator. External collaborators are oracles:
`in_repo` is whether `git rev-parse` succeeds, `status_files` the raw
`scm.GIT.CaptureStatus` result, `refactor_branch_upstream` the upstream of
the current branch, `suggest` the owners client's reviewer suggestion
(author and EVERYONE exclusion folded in), `cmd_upload` the upload command
keyed by group directory, `answers` the interactive-prompt oracle, and
`st.current` the current branch. Returns the exit code and the effect trace;
`none` models a crash — a failed assertion, the `IndexError` of the
description rewrite on an empty pre-footer part, or the non-terminating
ownership walk. An `in_repo = false` run is the `CalledProcessError` caught
at top level: exit 1. -/
def SplitCl (description_file_content : Str) (comment_file_content : Option Str)
    (cmd_upload : Str → List Str → Int)
    (dry_run cq_dry_run enable_auto_submit : Bool) (max_depth : Int)
    (topic : Option Str) (repository_root cwd : Str) (isfile : Str → Bool)
    (in_repo : Bool) (status_files : List (Str × Str))
    (refactor_branch_upstream : Str) (suggest : List Str → List Str)
    (answers : Str → Str) (st : GitSt) : Option (Int × List Eff) :=
  match AddUploadedByGitClSplitToDescription description_file_content with
  | none => none
  | some description =>
    let comment := comment_file_content
    if ¬ in_repo then some (1, [])
    else
      let files := status_files.map (fun af => (pystrip af.1, af.2))
      if files = [] then some (1, [Eff.print (str "Cannot split an empty CL.")])
      else
        let refactor_branch := st.current
        if refactor_branch = [] then none
        else if refactor_branch_upstream = [] then none
        else
          match GetFilesSplitByOwners isfile files max_depth with
          | none => none
          | some groups =>
            let num_cls := groups.length
            let e0 := [Eff.print (str "Will split current branch (" ++
              refactor_branch ++ str ") into " ++ natToStr num_cls ++
              str " CLs.\n")]
            if cq_dry_run = true ∧ CL_SPLIT_FORCE_LIMIT < num_cls then
              let e1 := e0 ++ [Eff.print (fanoutWarning num_cls),
                Eff.ask fanoutPromptStr]
              if ¬ pyLower (answers fanoutPromptStr) = str "y" then some (0, e1)
              else SplitClBugGate refactor_branch refactor_branch_upstream
                description comment suggest cmd_upload dry_run cq_dry_run
                enable_auto_submit topic repository_root cwd groups st answers e1
            else SplitClBugGate refactor_branch refactor_branch_upstream
              description comment suggest cmd_upload dry_run cq_dry_run
              enable_auto_submit topic repository_root cwd groups st answers e0

/-! ## Effect-shape lemmas for the orchestrator claims -/

theorem mem_ite_nil {α : Type} {c : Prop} [Decidable c] {e : α} {l : List α}
    (h : e ∈ (if c then l else [])) : e ∈ l := by
  split at h
  · exact h
  · cases h

/-- Every effect `UploadCl` emits is a print, branch creation, rm, checkout
of files, commit, upload, or comment — never a prompt or a branch
checkout. -/
theorem UploadCl_effects (P : Eff → Prop)
    (hprint : ∀ m, P (Eff.print m))
    (hcreate : ∀ n u, P (Eff.createBranch n u))
    (hrm : ∀ ps, P (Eff.gitRm ps))
    (hco : ∀ b ps, P (Eff.checkoutFiles b ps))
    (hcommit : ∀ m, P (Eff.commit m))
    (hupload : ∀ a, P (Eff.upload a))
    (hcmt : ∀ t pb, P (Eff.addComment t pb))
    (refactor_branch upstream directory : Str) (gfiles : List (Str × Str))
    (description : Str) (comment : Option Str) (reviewers : List Str)
    (cmd_upload : List Str → Int) (cq_dry_run enable_auto_submit : Bool)
    (topic : Option Str) (repository_root cwd : Str) (st : GitSt) :
    ∀ e ∈ (UploadCl refactor_branch upstream directory gfiles description
        comment reviewers cmd_upload cq_dry_run enable_auto_submit topic
        repository_root cwd st).2, P e := by
  by_cases hb : branchNameFor refactor_branch directory ∈ st.branches
  · have hc : CreateBranchForDirectory refactor_branch directory upstream st
        = (false, st, []) := by
      unfold CreateBranchForDirectory
      rw [if_pos hb]
    unfold UploadCl
    rw [hc]
    intro e he
    simp at he
    subst he
    exact hprint _
  · rw [UploadCl_trace_of_free refactor_branch upstream directory gfiles
      description comment reviewers cmd_upload cq_dry_run enable_auto_submit
      topic repository_root cwd st hb]
    intro e he
    rcases List.mem_append.mp he with he1 | he7
    · rcases List.mem_append.mp he1 with he2 | he6
      · rcases List.mem_append.mp he2 with he3 | he5
        · rcases List.mem_append.mp he3 with he4 | hcm
          · rcases List.mem_append.mp he4 with he8 | hpr
            · rcases List.mem_append.mp he8 with hcr | hmid
              · rcases List.mem_singleton.mp hcr with rfl
                exact hcreate _ _
              · rcases List.mem_append.mp hmid with hd | hm2
                · rcases List.mem_singleton.mp (mem_ite_nil hd) with rfl
                  exact hrm _
                · rcases List.mem_singleton.mp (mem_ite_nil hm2) with rfl
                  exact hco _ _
            · rcases List.mem_singleton.mp hpr with rfl
              exact hcommit _
          · rcases List.mem_singleton.mp hcm with rfl
            exact hprint _
        · rcases List.mem_singleton.mp he5 with rfl
          exact hupload _
      · have h9 := mem_ite_nil he6
        simp only [List.mem_cons, List.mem_singleton] at h9
        rcases h9 with rfl | rfl | rfl | h0
        · exact hprint _
        · exact hprint _
        · exact hprint _
        · cases h0
    · rcases comment with _ | ccc
      · cases he7
      · rcases List.mem_singleton.mp (mem_ite_nil he7) with rfl
        exact hcmt _ _

/-- Every effect of `PrintClInfo` is a console print. -/
theorem PrintClInfo_effects (P : Eff → Prop) (hprint : ∀ m, P (Eff.print m))
    (cl_index num_cls : Nat) (directory : Str) (file_paths : List Str)
    (description : Str) (reviewers : List Str) (enable_auto_submit : Bool)
    (topic : Option Str) :
    ∀ e ∈ PrintClInfo cl_index num_cls directory file_paths description
        reviewers enable_auto_submit topic, P e := by
  intro e he
  simp only [PrintClInfo, List.mem_cons, List.mem_singleton] at he
  rcases he with rfl | rfl | rfl | rfl | rfl | rfl | rfl | rfl | h
  all_goals first
  | exact hprint _
  | cases h

/-- Every effect of the group loop comes from `PrintClInfo` or `UploadCl`. -/
theorem processGroups_effects (P : Eff → Prop)
    (hprint : ∀ m, P (Eff.print m))
    (hcreate : ∀ n u, P (Eff.createBranch n u))
    (hrm : ∀ ps, P (Eff.gitRm ps))
    (hco : ∀ b ps, P (Eff.checkoutFiles b ps))
    (hcommit : ∀ m, P (Eff.commit m))
    (hupload : ∀ a, P (Eff.upload a))
    (hcmt : ∀ t pb, P (Eff.addComment t pb))
    (refactor_branch refactor_branch_upstream description : Str)
    (comment : Option Str) (suggest : List Str → List Str)
    (cmd_upload : Str → List Str → Int)
    (dry_run cq_dry_run enable_auto_submit : Bool) (topic : Option Str)
    (repository_root cwd : Str) (num_cls : Nat) :
    ∀ (groups : List (Str × List (Str × Str))) (i : Nat) (st : GitSt),
      ∀ e ∈ (processGroups refactor_branch refactor_branch_upstream description
          comment suggest cmd_upload dry_run cq_dry_run enable_auto_submit
          topic repository_root cwd num_cls groups i st).2, P e := by
  intro groups
  induction groups with
  | nil => intro i st e he; cases he
  | cons g rest ih =>
    intro i st e he
    obtain ⟨directory, gfiles⟩ := g
    simp only [processGroups] at he
    split at he
    · rcases List.mem_append.mp he with h | h
      · exact PrintClInfo_effects P hprint _ _ _ _ _ _ _ _ e h
      · exact ih _ _ e h
    · rcases List.mem_append.mp he with h | h
      · exact UploadCl_effects P hprint hcreate hrm hco hcommit hupload hcmt
          _ _ _ _ _ _ _ _ _ _ _ _ _ _ e h
      · exact ih _ _ e h

/-- The bug-link gate always answers `some`, with the accumulated trace `e`
as a prefix of the final trace. -/
theorem SplitClBugGate_extends (refactor_branch refactor_branch_upstream
      description : Str)
    (comment : Option Str) (suggest : List Str → List Str)
    (cmd_upload : Str → List Str → Int)
    (dry_run cq_dry_run enable_auto_submit : Bool) (topic : Option Str)
    (repository_root cwd : Str) (groups : List (Str × List (Str × Str)))
    (st : GitSt) (answers : Str → Str) (e : List Eff) :
    ∃ c t, SplitClBugGate refactor_branch refactor_branch_upstream description
        comment suggest cmd_upload dry_run cq_dry_run enable_auto_submit topic
        repository_root cwd groups st answers e = some (c, e ++ t) := by
  by_cases h1 : descriptionHasBugLink description = true
  · refine ⟨0, (processGroups refactor_branch refactor_branch_upstream
      description comment suggest cmd_upload dry_run cq_dry_run
      enable_auto_submit topic repository_root cwd groups.length groups 1
      st).2 ++ [Eff.checkoutBranch refactor_branch], ?_⟩
    simp only [SplitClBugGate, SplitClAfterGates]
    rw [if_pos h1]
    simp [List.append_assoc]
  · by_cases h2 : ¬ pyLower (answers bugPromptStr) = str "y"
    · refine ⟨0, [Eff.ask bugPromptStr], ?_⟩
      simp only [SplitClBugGate, SplitClAfterGates]
      rw [if_neg h1, if_pos h2]
    · refine ⟨0, [Eff.ask bugPromptStr] ++ ((processGroups refactor_branch
        refactor_branch_upstream description comment suggest cmd_upload dry_run
        cq_dry_run enable_auto_submit topic repository_root cwd groups.length
        groups 1 st).2 ++ [Eff.checkoutBranch refactor_branch]), ?_⟩
      simp only [SplitClBugGate, SplitClAfterGates]
      rw [if_neg h1, if_neg h2]
      simp [List.append_assoc]

/-- Every effect the bug-link gate adds beyond the accumulated trace is the
bug prompt itself, a group-loop effect, or the final branch restore. -/
theorem SplitClBugGate_effects (P : Eff → Prop)
    (hprint : ∀ m, P (Eff.print m))
    (haskbug : P (Eff.ask bugPromptStr))
    (hcreate : ∀ n u, P (Eff.createBranch n u))
    (hrm : ∀ ps, P (Eff.gitRm ps))
    (hco : ∀ b ps, P (Eff.checkoutFiles b ps))
    (hcommit : ∀ m, P (Eff.commit m))
    (hupload : ∀ a, P (Eff.upload a))
    (hcmt : ∀ t pb, P (Eff.addComment t pb))
    (hcob : ∀ b, P (Eff.checkoutBranch b))
    (refactor_branch refactor_branch_upstream description : Str)
    (comment : Option Str) (suggest : List Str → List Str)
    (cmd_upload : Str → List Str → Int)
    (dry_run cq_dry_run enable_auto_submit : Bool) (topic : Option Str)
    (repository_root cwd : Str) (groups : List (Str × List (Str × Str)))
    (st : GitSt) (answers : Str → Str) (e : List Eff)
    (he : ∀ x ∈ e, P x) (c : Int) (t : List Eff)
    (hres : SplitClBugGate refactor_branch refactor_branch_upstream description
        comment suggest cmd_upload dry_run cq_dry_run enable_auto_submit topic
        repository_root cwd groups st answers e = some (c, t)) :
    ∀ x ∈ t, P x := by
  simp only [SplitClBugGate, SplitClAfterGates] at hres
  split_ifs at hres with h1 h2
  · simp only [Option.some.injEq, Prod.mk.injEq] at hres
    obtain ⟨hc, ht⟩ := hres
    subst ht
    intro x hx
    rcases List.mem_append.mp hx with h3 | h4
    · rcases List.mem_append.mp h3 with h5 | h6
      · exact he x h5
      · exact processGroups_effects P hprint hcreate hrm hco hcommit hupload
          hcmt _ _ _ _ _ _ _ _ _ _ _ _ _ _ _ _ x h6
    · rcases List.mem_singleton.mp h4 with rfl
      exact hcob _
  · simp only [Option.some.injEq, Prod.mk.injEq] at hres
    obtain ⟨hc, ht⟩ := hres
    subst ht
    intro x hx
    rcases List.mem_append.mp hx with h3 | h4
    · rcases List.mem_append.mp h3 with h5 | h6
      · rcases List.mem_append.mp h5 with h7 | h8
        · exact he x h7
        · rcases List.mem_singleton.mp h8 with rfl
          exact haskbug
      · exact processGroups_effects P hprint hcreate hrm hco hcommit hupload
          hcmt _ _ _ _ _ _ _ _ _ _ _ _ _ _ _ _ x h6
    · rcases List.mem_singleton.mp h4 with rfl
      exact hcob _
  · simp only [Option.some.injEq, Prod.mk.injEq] at hres
    obtain ⟨hc, ht⟩ := hres
    subst ht
    intro x hx
    rcases List.mem_append.mp hx with h3 | h4
    · exact he x h3
    · rcases List.mem_singleton.mp h4 with rfl
      exact haskbug

/-- Claim C6: on a run that reaches the fan-out check, the confirmation
prompt `Proceed? (y/n):` appears in the trace exactly when commit-queue dry
run is enabled and the number of ownership groups strictly exceeds the
threshold `CL_SPLIT_FORCE_LIMIT = 10`; and when prompted, any answer other
than `y` (case-insensitively) ends the run with exit status 0 immediately —
the trace stops at the prompt, so no group is processed and no side effect
is performed. -/
theorem SplitCl_fanout_gate (description_file_content : Str)
    (comment_file_content : Option Str) (cmd_upload : Str → List Str → Int)
    (dry_run cq_dry_run enable_auto_submit : Bool) (max_depth : Int)
    (topic : Option Str) (repository_root cwd : Str) (isfile : Str → Bool)
    (status_files : List (Str × Str)) (refactor_branch_upstream : Str)
    (suggest : List Str → List Str) (answers : Str → Str) (st : GitSt)
    (description : Str) (groups : List (Str × List (Str × Str)))
    (code : Int) (trace : List Eff)
    (hdesc : AddUploadedByGitClSplitToDescription description_file_content
      = some description)
    (hfiles : status_files.map (fun af => (pystrip af.1, af.2)) ≠ [])
    (hrb : st.current ≠ [])
    (hup : refactor_branch_upstream ≠ [])
    (hm : GetFilesSplitByOwners isfile
        (status_files.map (fun af => (pystrip af.1, af.2))) max_depth
      = some groups)
    (hres : SplitCl description_file_content comment_file_content cmd_upload
        dry_run cq_dry_run enable_auto_submit max_depth topic repository_root
        cwd isfile true status_files refactor_branch_upstream suggest answers
        st = some (code, trace)) :
    CL_SPLIT_FORCE_LIMIT = 10 ∧
    ((cq_dry_run = true ∧ CL_SPLIT_FORCE_LIMIT < groups.length) ↔
      Eff.ask fanoutPromptStr ∈ trace) ∧
    (cq_dry_run = true → CL_SPLIT_FORCE_LIMIT < groups.length →
      ¬ pyLower (answers fanoutPromptStr) = str "y" →
      code = 0 ∧
      trace = [Eff.print (str "Will split current branch (" ++ st.current ++
          str ") into " ++ natToStr groups.length ++ str " CLs.\n"),
        Eff.print (fanoutWarning groups.length), Eff.ask fanoutPromptStr] ∧
      ∀ e ∈ trace, e.isSideEffect = false) := by
  simp only [SplitCl, hdesc, hm] at hres
  rw [if_neg (show ¬ ¬ True by simp)] at hres
  rw [if_neg hfiles] at hres
  rw [if_neg hrb] at hres
  rw [if_neg hup] at hres
  refine ⟨rfl, ?_⟩
  by_cases hgate : cq_dry_run = true ∧ CL_SPLIT_FORCE_LIMIT < groups.length
  · rw [if_pos hgate] at hres
    by_cases hans : ¬ pyLower (answers fanoutPromptStr) = str "y"
    · rw [if_pos hans] at hres
      injection hres with h3
      injection h3 with hc0 ht
      subst ht
      subst hc0
      refine ⟨?_, ?_⟩
      · constructor
        · intro _
          simp
        · intro _
          exact hgate
      · intro _ _ _
        refine ⟨rfl, rfl, ?_⟩
        intro x hx
        rcases List.mem_append.mp hx with h1 | h2
        · rcases List.mem_singleton.mp h1 with rfl
          rfl
        · simp only [List.mem_cons, List.mem_singleton] at h2
          rcases h2 with rfl | rfl | h0
          · rfl
          · rfl
          · cases h0
    · rw [if_neg hans] at hres
      rw [not_not] at hans
      obtain ⟨c', t', heq⟩ := SplitClBugGate_extends st.current
        refactor_branch_upstream description comment_file_content suggest
        cmd_upload dry_run cq_dry_run enable_auto_submit topic repository_root
        cwd groups st answers
        ([Eff.print (str "Will split current branch (" ++ st.current ++
            str ") into " ++ natToStr groups.length ++ str " CLs.\n")] ++
          [Eff.print (fanoutWarning groups.length), Eff.ask fanoutPromptStr])
      rw [heq] at hres
      injection hres with h3
      injection h3 with hc0 ht
      subst ht
      refine ⟨?_, ?_⟩
      · constructor
        · intro _
          refine List.mem_append.mpr (Or.inl ?_)
          simp
        · intro _
          exact hgate
      · intro _ _ hd
        exact absurd hans hd
  · rw [if_neg hgate] at hres
    refine ⟨?_, ?_⟩
    · constructor
      · intro hg
        exact absurd hg hgate
      · intro hask
        exfalso
        have hall := SplitClBugGate_effects
          (fun x => x ≠ Eff.ask fanoutPromptStr)
          (fun m => by simp) (by decide) (fun n u => by simp)
          (fun ps => by simp) (fun b ps => by simp) (fun m => by simp)
          (fun a => by simp) (fun t pb => by simp) (fun b => by simp)
          _ _ _ _ _ _ _ _ _ _ _ _ _ _ _
          ([Eff.print (str "Will split current branch (" ++ st.current ++
            str ") into " ++ natToStr groups.length ++ str " CLs.\n")])
          (by
            intro x hx
            rcases List.mem_singleton.mp hx with rfl
            simp)
          _ _ hres
        exact hall _ hask rfl
    · intro hcq hlen _
      exact absurd ⟨hcq, hlen⟩ hgate

/-- A concrete run with eleven ownership groups (each directory carries its
own OWNERS marker), commit-queue dry run enabled, and a prompt oracle that
answers `n`. -/
def fanoutScenario : Option (Int × List Eff) :=
  SplitCl (str "body") none (fun _ _ => 0) false true false 0 none
    (str "/r") (str "/r") (fun p => p.getLast? == some 'S') true
    [(str "M", str "d0/x"), (str "M", str "d1/x"), (str "M", str "d2/x"),
     (str "M", str "d3/x"), (str "M", str "d4/x"), (str "M", str "d5/x"),
     (str "M", str "d6/x"), (str "M", str "d7/x"), (str "M", str "d8/x"),
     (str "M", str "d9/x"), (str "M", str "da/x")]
    (str "u") (fun _ => []) (fun _ => str "n") ⟨[], str "b"⟩

/-- Witness for C6: the eleven-group cq-dry-run scenario prompts, and the
declined run exits 0 without side effects. -/
theorem SplitCl_fanout_gate_witness :
    (fanoutScenario.getD (1, [])).1 = 0 ∧
    Eff.ask fanoutPromptStr ∈ (fanoutScenario.getD (1, [])).2 ∧
    ((fanoutScenario.getD (1, [])).2.any Eff.isSideEffect) = false := by
  obtain ⟨⟨code, trace⟩, hres⟩ : ∃ r, fanoutScenario = some r := ⟨_, rfl⟩
  obtain ⟨g, hg⟩ : ∃ g, GetFilesSplitByOwners
      (fun p => p.getLast? == some 'S')
      ([(str "M", str "d0/x"), (str "M", str "d1/x"), (str "M", str "d2/x"),
        (str "M", str "d3/x"), (str "M", str "d4/x"), (str "M", str "d5/x"),
        (str "M", str "d6/x"), (str "M", str "d7/x"), (str "M", str "d8/x"),
        (str "M", str "d9/x"),
        (str "M", str "da/x")].map (fun af => (pystrip af.1, af.2))) 0
      = some g := ⟨_, rfl⟩
  have hlen : g.length = 11 := by
    have h2 : Option.map List.length (GetFilesSplitByOwners
        (fun p => p.getLast? == some 'S')
        ([(str "M", str "d0/x"), (str "M", str "d1/x"), (str "M", str "d2/x"),
          (str "M", str "d3/x"), (str "M", str "d4/x"), (str "M", str "d5/x"),
          (str "M", str "d6/x"), (str "M", str "d7/x"), (str "M", str "d8/x"),
          (str "M", str "d9/x"),
          (str "M", str "da/x")].map (fun af => (pystrip af.1, af.2))) 0)
        = some 11 := by rfl
    rw [hg] at h2
    simpa using h2
  have hmain := SplitCl_fanout_gate (str "body") none (fun _ _ => 0) false
    true false 0 none (str "/r") (str "/r")
    (fun p => p.getLast? == some 'S')
    [(str "M", str "d0/x"), (str "M", str "d1/x"), (str "M", str "d2/x"),
     (str "M", str "d3/x"), (str "M", str "d4/x"), (str "M", str "d5/x"),
     (str "M", str "d6/x"), (str "M", str "d7/x"), (str "M", str "d8/x"),
     (str "M", str "d9/x"), (str "M", str "da/x")]
    (str "u") (fun _ => []) (fun _ => str "n") ⟨[], str "b"⟩
    (str "body\n\nThis CL was uploaded by git cl split.") g code trace
    (by rfl) (by decide) (by decide) (by decide) hg hres
  obtain ⟨hlimit, hiff, hdecl⟩ := hmain
  have hg10 : CL_SPLIT_FORCE_LIMIT < g.length := by
    rw [hlen]
    decide
  obtain ⟨hc0, htr, hsf⟩ := hdecl rfl hg10 (by decide)
  refine ⟨?_, ?_, ?_⟩
  · rw [hres]
    exact hc0
  · rw [hres]
    exact hiff.mp ⟨rfl, hg10⟩
  · rw [hres]
    exact any_eq_false_of_forall hsf

/-- The non-console part of a trace: every effect except `print`. The
prompts are kept — they drive control flow. -/
def nonPrintsOf (es : List Eff) : List Eff :=
  es.filter (fun e => ! e.isPrintEff)

@[simp] theorem nonPrintsOf_nil : nonPrintsOf [] = [] := rfl

@[simp] theorem nonPrintsOf_append (a b : List Eff) :
    nonPrintsOf (a ++ b) = nonPrintsOf a ++ nonPrintsOf b := by
  simp [nonPrintsOf]

@[simp] theorem nonPrintsOf_cons_print (m : Str) (es : List Eff) :
    nonPrintsOf (Eff.print m :: es) = nonPrintsOf es := by
  simp [nonPrintsOf, Eff.isPrintEff]

@[simp] theorem nonPrintsOf_cons_ask (m : Str) (es : List Eff) :
    nonPrintsOf (Eff.ask m :: es) = Eff.ask m :: nonPrintsOf es := by
  simp [nonPrintsOf, Eff.isPrintEff]

@[simp] theorem nonPrintsOf_cons_createBranch (n u : Str) (es : List Eff) :
    nonPrintsOf (Eff.createBranch n u :: es)
      = Eff.createBranch n u :: nonPrintsOf es := by
  simp [nonPrintsOf, Eff.isPrintEff]

@[simp] theorem nonPrintsOf_cons_gitRm (ps : List Str) (es : List Eff) :
    nonPrintsOf (Eff.gitRm ps :: es) = Eff.gitRm ps :: nonPrintsOf es := by
  simp [nonPrintsOf, Eff.isPrintEff]

@[simp] theorem nonPrintsOf_cons_checkoutFiles (b : Str) (ps : List Str)
    (es : List Eff) :
    nonPrintsOf (Eff.checkoutFiles b ps :: es)
      = Eff.checkoutFiles b ps :: nonPrintsOf es := by
  simp [nonPrintsOf, Eff.isPrintEff]

@[simp] theorem nonPrintsOf_cons_commit (m : Str) (es : List Eff) :
    nonPrintsOf (Eff.commit m :: es) = Eff.commit m :: nonPrintsOf es := by
  simp [nonPrintsOf, Eff.isPrintEff]

@[simp] theorem nonPrintsOf_cons_upload (a : List Str) (es : List Eff) :
    nonPrintsOf (Eff.upload a :: es) = Eff.upload a :: nonPrintsOf es := by
  simp [nonPrintsOf, Eff.isPrintEff]

@[simp] theorem nonPrintsOf_cons_addComment (t : Str) (p : Bool)
    (es : List Eff) :
    nonPrintsOf (Eff.addComment t p :: es)
      = Eff.addComment t p :: nonPrintsOf es := by
  simp [nonPrintsOf, Eff.isPrintEff]

@[simp] theorem nonPrintsOf_cons_checkoutBranch (b : Str) (es : List Eff) :
    nonPrintsOf (Eff.checkoutBranch b :: es)
      = Eff.checkoutBranch b :: nonPrintsOf es := by
  simp [nonPrintsOf, Eff.isPrintEff]

@[simp] theorem nonPrintsOf_ite (c : Prop) [Decidable c] (a b : List Eff) :
    nonPrintsOf (if c then a else b)
      = if c then nonPrintsOf a else nonPrintsOf b := by
  split <;> rfl

/-- The resulting git state and the non-console trace of `UploadCl` do not
depend on the exit code of the external upload command: only the failure
report differs. -/
theorem UploadCl_cmd_ind (refactor_branch upstream directory : Str)
    (gfiles : List (Str × Str)) (description : Str) (comment : Option Str)
    (reviewers : List Str) (cu cu' : List Str → Int)
    (cq_dry_run enable_auto_submit : Bool) (topic : Option Str)
    (repository_root cwd : Str) (st : GitSt) :
    (UploadCl refactor_branch upstream directory gfiles description comment
        reviewers cu cq_dry_run enable_auto_submit topic repository_root cwd
        st).1
      = (UploadCl refactor_branch upstream directory gfiles description
          comment reviewers cu' cq_dry_run enable_auto_submit topic
          repository_root cwd st).1 ∧
    nonPrintsOf (UploadCl refactor_branch upstream directory gfiles
        description comment reviewers cu cq_dry_run enable_auto_submit topic
        repository_root cwd st).2
      = nonPrintsOf (UploadCl refactor_branch upstream directory gfiles
          description comment reviewers cu' cq_dry_run enable_auto_submit
          topic repository_root cwd st).2 := by
  by_cases hb : branchNameFor refactor_branch directory ∈ st.branches
  · have hc : CreateBranchForDirectory refactor_branch directory upstream st
        = (false, st, []) := by
      unfold CreateBranchForDirectory
      rw [if_pos hb]
    constructor
    · unfold UploadCl
      rw [hc]
    · unfold UploadCl
      rw [hc]
  · constructor
    · have hc : CreateBranchForDirectory refactor_branch directory upstream st
          = (true, ⟨st.branches ++ [branchNameFor refactor_branch directory],
              branchNameFor refactor_branch directory⟩,
            [Eff.createBranch (branchNameFor refactor_branch directory)
              upstream]) := by
        unfold CreateBranchForDirectory
        rw [if_neg hb]
      unfold UploadCl
      rw [hc]
    · rw [UploadCl_trace_of_free refactor_branch upstream directory gfiles
        description comment reviewers cu cq_dry_run enable_auto_submit topic
        repository_root cwd st hb]
      rw [UploadCl_trace_of_free refactor_branch upstream directory gfiles
        description comment reviewers cu' cq_dry_run enable_auto_submit topic
        repository_root cwd st hb]
      rcases comment with _ | c
      · simp
      · simp

/-- The group loop's final git state and non-console trace do not depend on
the upload command's exit codes. -/
theorem processGroups_cmd_ind (refactor_branch refactor_branch_upstream
      description : Str)
    (comment : Option Str) (suggest : List Str → List Str)
    (cu cu' : Str → List Str → Int)
    (dry_run cq_dry_run enable_auto_submit : Bool) (topic : Option Str)
    (repository_root cwd : Str) (num_cls : Nat) :
    ∀ (groups : List (Str × List (Str × Str))) (i : Nat) (st : GitSt),
      (processGroups refactor_branch refactor_branch_upstream description
          comment suggest cu dry_run cq_dry_run enable_auto_submit topic
          repository_root cwd num_cls groups i st).1
        = (processGroups refactor_branch refactor_branch_upstream description
            comment suggest cu' dry_run cq_dry_run enable_auto_submit topic
            repository_root cwd num_cls groups i st).1 ∧
      nonPrintsOf (processGroups refactor_branch refactor_branch_upstream
          description comment suggest cu dry_run cq_dry_run enable_auto_submit
          topic repository_root cwd num_cls groups i st).2
        = nonPrintsOf (processGroups refactor_branch refactor_branch_upstream
            description comment suggest cu' dry_run cq_dry_run
            enable_auto_submit topic repository_root cwd num_cls groups i
            st).2 := by
  intro groups
  induction groups with
  | nil => intro i st; exact ⟨rfl, rfl⟩
  | cons g rest ih =>
    intro i st
    obtain ⟨directory, gfiles⟩ := g
    simp only [processGroups]
    split_ifs with hdr
    · obtain ⟨ih1, ih2⟩ := ih (i + 1) st
      constructor
      · exact ih1
      · simp only [nonPrintsOf_append]
        rw [ih2]
    · obtain ⟨hu1, hu2⟩ := UploadCl_cmd_ind refactor_branch
        refactor_branch_upstream directory gfiles description comment
        (suggest (gfiles.map Prod.snd)) (cu directory) (cu' directory)
        cq_dry_run enable_auto_submit topic repository_root cwd st
      constructor
      · rw [hu1]
        exact (ih (i + 1) _).1
      · simp only [nonPrintsOf_append]
        rw [hu2, hu1]
        rw [(ih (i + 1) _).2]

/-- Exit code and non-console trace of the post-gate tail are independent of
the upload command's exit codes. -/
theorem SplitClAfterGates_cmd_ind (refactor_branch refactor_branch_upstream
      description : Str)
    (comment : Option Str) (suggest : List Str → List Str)
    (cu cu' : Str → List Str → Int)
    (dry_run cq_dry_run enable_auto_submit : Bool) (topic : Option Str)
    (repository_root cwd : Str) (groups : List (Str × List (Str × Str)))
    (st : GitSt) (e : List Eff) :
    Option.map (fun ct => (ct.1, nonPrintsOf ct.2))
        (SplitClAfterGates refactor_branch refactor_branch_upstream
          description comment suggest cu dry_run cq_dry_run enable_auto_submit
          topic repository_root cwd groups st e)
      = Option.map (fun ct => (ct.1, nonPrintsOf ct.2))
          (SplitClAfterGates refactor_branch refactor_branch_upstream
            description comment suggest cu' dry_run cq_dry_run
            enable_auto_submit topic repository_root cwd groups st e) := by
  obtain ⟨h1, h2⟩ := processGroups_cmd_ind refactor_branch
    refactor_branch_upstream description comment suggest cu cu' dry_run
    cq_dry_run enable_auto_submit topic repository_root cwd groups.length
    groups 1 st
  simp only [SplitClAfterGates, Option.map_some', nonPrintsOf_append]
  rw [h2]

/-- Exit code and non-console trace of the bug-link gate are independent of
the upload command's exit codes. -/
theorem SplitClBugGate_cmd_ind (refactor_branch refactor_branch_upstream
      description : Str)
    (comment : Option Str) (suggest : List Str → List Str)
    (cu cu' : Str → List Str → Int)
    (dry_run cq_dry_run enable_auto_submit : Bool) (topic : Option Str)
    (repository_root cwd : Str) (groups : List (Str × List (Str × Str)))
    (st : GitSt) (answers : Str → Str) (e : List Eff) :
    Option.map (fun ct => (ct.1, nonPrintsOf ct.2))
        (SplitClBugGate refactor_branch refactor_branch_upstream description
          comment suggest cu dry_run cq_dry_run enable_auto_submit topic
          repository_root cwd groups st answers e)
      = Option.map (fun ct => (ct.1, nonPrintsOf ct.2))
          (SplitClBugGate refactor_branch refactor_branch_upstream description
            comment suggest cu' dry_run cq_dry_run enable_auto_submit topic
            repository_root cwd groups st answers e) := by
  simp only [SplitClBugGate]
  split_ifs
  · exact SplitClAfterGates_cmd_ind refactor_branch refactor_branch_upstream
      description comment suggest cu cu' dry_run cq_dry_run enable_auto_submit
      topic repository_root cwd groups st e
  · exact SplitClAfterGates_cmd_ind refactor_branch refactor_branch_upstream
      description comment suggest cu cu' dry_run cq_dry_run enable_auto_submit
      topic repository_root cwd groups st (e ++ [Eff.ask bugPromptStr])
  · rfl

/-- Exit code and non-console trace of a whole `SplitCl` run are independent
of the upload command's exit codes: per-group upload failures only change
what is printed, never which groups are processed or how the run ends. -/
theorem SplitCl_cmd_ind (description_file_content : Str)
    (comment_file_content : Option Str) (cu cu' : Str → List Str → Int)
    (dry_run cq_dry_run enable_auto_submit : Bool) (max_depth : Int)
    (topic : Option Str) (repository_root cwd : Str) (isfile : Str → Bool)
    (in_repo : Bool) (status_files : List (Str × Str))
    (refactor_branch_upstream : Str) (suggest : List Str → List Str)
    (answers : Str → Str) (st : GitSt) :
    Option.map (fun ct => (ct.1, nonPrintsOf ct.2))
        (SplitCl description_file_content comment_file_content cu dry_run
          cq_dry_run enable_auto_submit max_depth topic repository_root cwd
          isfile in_repo status_files refactor_branch_upstream suggest answers
          st)
      = Option.map (fun ct => (ct.1, nonPrintsOf ct.2))
          (SplitCl description_file_content comment_file_content cu' dry_run
            cq_dry_run enable_auto_submit max_depth topic repository_root cwd
            isfile in_repo status_files refactor_branch_upstream suggest
            answers st) := by
  cases hd : AddUploadedByGitClSplitToDescription description_file_content with
  | none => simp [SplitCl, hd]
  | some description =>
    cases hm : GetFilesSplitByOwners isfile
        (status_files.map (fun af => (pystrip af.1, af.2))) max_depth with
    | none =>
      simp only [SplitCl, hd, hm]
    | some groups =>
      simp only [SplitCl, hd, hm]
      split_ifs <;> first
        | rfl
        | apply SplitClBugGate_cmd_ind

/-- When the bug-link gate passes — the description has a bug link, or the
user confirms — the run continues into the group loop and ends with the
branch restore, with exit code 0. -/
theorem SplitClBugGate_pass (refactor_branch refactor_branch_upstream
      description : Str)
    (comment : Option Str) (suggest : List Str → List Str)
    (cmd_upload : Str → List Str → Int)
    (dry_run cq_dry_run enable_auto_submit : Bool) (topic : Option Str)
    (repository_root cwd : Str) (groups : List (Str × List (Str × Str)))
    (st : GitSt) (answers : Str → Str) (e : List Eff)
    (hbug : descriptionHasBugLink description = false →
      pyLower (answers bugPromptStr) = str "y") :
    ∃ e2, SplitClBugGate refactor_branch refactor_branch_upstream description
        comment suggest cmd_upload dry_run cq_dry_run enable_auto_submit topic
        repository_root cwd groups st answers e
      = some (0, e2 ++ (processGroups refactor_branch
          refactor_branch_upstream description comment suggest cmd_upload
          dry_run cq_dry_run enable_auto_submit topic repository_root cwd
          groups.length groups 1 st).2 ++
        [Eff.checkoutBranch refactor_branch]) := by
  by_cases h1 : descriptionHasBugLink description = true
  · refine ⟨e, ?_⟩
    simp only [SplitClBugGate, SplitClAfterGates]
    rw [if_pos h1]
  · have hy := hbug (Bool.eq_false_iff.mpr h1)
    refine ⟨e ++ [Eff.ask bugPromptStr], ?_⟩
    simp only [SplitClBugGate, SplitClAfterGates]
    rw [if_neg h1, if_neg (not_not_intro hy)]

/-- Claim C9: on a run whose safety gates pass (the fan-out prompt, if shown,
is answered `y`, and the description has a bug link or the bug prompt is
answered `y`), the run exits 0 and its very last effect checks out the
original branch again — restoration happens regardless of per-group
outcomes. A failed upload is reported on the console, and apart from console
prints the whole run — exit code and every remaining effect, so in
particular the processing of all later groups and the final restore — is
unchanged under any other upload exit codes. -/
theorem SplitCl_restores_branch (description_file_content : Str)
    (comment_file_content : Option Str) (cmd_upload : Str → List Str → Int)
    (dry_run cq_dry_run enable_auto_submit : Bool) (max_depth : Int)
    (topic : Option Str) (repository_root cwd : Str) (isfile : Str → Bool)
    (status_files : List (Str × Str)) (refactor_branch_upstream : Str)
    (suggest : List Str → List Str) (answers : Str → Str) (st : GitSt)
    (description : Str) (groups : List (Str × List (Str × Str)))
    (code : Int) (trace : List Eff)
    (hdesc : AddUploadedByGitClSplitToDescription description_file_content
      = some description)
    (hfiles : status_files.map (fun af => (pystrip af.1, af.2)) ≠ [])
    (hrb : st.current ≠ [])
    (hup : refactor_branch_upstream ≠ [])
    (hm : GetFilesSplitByOwners isfile
        (status_files.map (fun af => (pystrip af.1, af.2))) max_depth
      = some groups)
    (hfan : cq_dry_run = true ∧ CL_SPLIT_FORCE_LIMIT < groups.length →
      pyLower (answers fanoutPromptStr) = str "y")
    (hbug : descriptionHasBugLink description = false →
      pyLower (answers bugPromptStr) = str "y")
    (hres : SplitCl description_file_content comment_file_content cmd_upload
        dry_run cq_dry_run enable_auto_submit max_depth topic repository_root
        cwd isfile true status_files refactor_branch_upstream suggest answers
        st = some (code, trace)) :
    code = 0 ∧
    trace.getLast? = some (Eff.checkoutBranch st.current) ∧
    (∀ cmd_upload2 : Str → List Str → Int,
      Option.map (fun ct => (ct.1, nonPrintsOf ct.2))
          (SplitCl description_file_content comment_file_content cmd_upload2
            dry_run cq_dry_run enable_auto_submit max_depth topic
            repository_root cwd isfile true status_files
            refactor_branch_upstream suggest answers st)
        = some (code, nonPrintsOf trace)) ∧
    (∀ (directory : Str) (gfiles : List (Str × Str)) (reviewers : List Str)
        (cu3 : List Str → Int) (st2 : GitSt),
      branchNameFor st.current directory ∉ st2.branches →
      cu3 (uploadArgsFor reviewers cq_dry_run comment_file_content
        enable_auto_submit topic) ≠ 0 →
      Eff.print (str "Uploading failed for " ++ directory ++ str ".") ∈
        (UploadCl st.current refactor_branch_upstream directory gfiles
          description comment_file_content reviewers cu3 cq_dry_run
          enable_auto_submit topic repository_root cwd st2).2) := by
  have hind : ∀ cmd_upload2 : Str → List Str → Int,
      Option.map (fun ct => (ct.1, nonPrintsOf ct.2))
          (SplitCl description_file_content comment_file_content cmd_upload2
            dry_run cq_dry_run enable_auto_submit max_depth topic
            repository_root cwd isfile true status_files
            refactor_branch_upstream suggest answers st)
        = some (code, nonPrintsOf trace) := by
    intro cmd_upload2
    rw [SplitCl_cmd_ind description_file_content comment_file_content
      cmd_upload2 cmd_upload dry_run cq_dry_run enable_auto_submit max_depth
      topic repository_root cwd isfile true status_files
      refactor_branch_upstream suggest answers st]
    rw [hres]
    rfl
  have hrep : ∀ (directory : Str) (gfiles : List (Str × Str))
      (reviewers : List Str) (cu3 : List Str → Int) (st2 : GitSt),
      branchNameFor st.current directory ∉ st2.branches →
      cu3 (uploadArgsFor reviewers cq_dry_run comment_file_content
        enable_auto_submit topic) ≠ 0 →
      Eff.print (str "Uploading failed for " ++ directory ++ str ".") ∈
        (UploadCl st.current refactor_branch_upstream directory gfiles
          description comment_file_content reviewers cu3 cq_dry_run
          enable_auto_submit topic repository_root cwd st2).2 := by
    intro directory gfiles reviewers cu3 st2 hfree2 hne
    rw [UploadCl_trace_of_free st.current refactor_branch_upstream directory
      gfiles description comment_file_content reviewers cu3 cq_dry_run
      enable_auto_submit topic repository_root cwd st2 hfree2]
    refine List.mem_append.mpr (Or.inl (List.mem_append.mpr (Or.inr ?_)))
    rw [if_pos hne]
    simp
  simp only [SplitCl, hdesc, hm] at hres
  rw [if_neg (show ¬ ¬ True by simp)] at hres
  rw [if_neg hfiles] at hres
  rw [if_neg hrb] at hres
  rw [if_neg hup] at hres
  by_cases hgate : cq_dry_run = true ∧ CL_SPLIT_FORCE_LIMIT < groups.length
  · rw [if_pos hgate] at hres
    rw [if_neg (not_not_intro (hfan hgate))] at hres
    obtain ⟨e2, h2⟩ := SplitClBugGate_pass st.current
      refactor_branch_upstream description comment_file_content suggest
      cmd_upload dry_run cq_dry_run enable_auto_submit topic repository_root
      cwd groups st answers
      ([Eff.print (str "Will split current branch (" ++ st.current ++
          str ") into " ++ natToStr groups.length ++ str " CLs.\n")] ++
        [Eff.print (fanoutWarning groups.length), Eff.ask fanoutPromptStr])
      hbug
    rw [h2] at hres
    injection hres with h3
    injection h3 with hc0 ht
    subst ht
    subst hc0
    exact ⟨rfl, List.getLast?_concat _, hind, hrep⟩
  · rw [if_neg hgate] at hres
    obtain ⟨e2, h2⟩ := SplitClBugGate_pass st.current
      refactor_branch_upstream description comment_file_content suggest
      cmd_upload dry_run cq_dry_run enable_auto_submit topic repository_root
      cwd groups st answers
      [Eff.print (str "Will split current branch (" ++ st.current ++
        str ") into " ++ natToStr groups.length ++ str " CLs.\n")]
      hbug
    rw [h2] at hres
    injection hres with h3
    injection h3 with hc0 ht
    subst ht
    subst hc0
    exact ⟨rfl, List.getLast?_concat _, hind, hrep⟩

/-- A concrete non-dry run with one group whose upload fails (exit code 1),
and a description that carries a bug link. -/
def restoreScenario : Option (Int × List Eff) :=
  SplitCl (str "body\n\nBug: 12") none (fun _ _ => 1) false false false 0 none
    (str "/r") (str "/r") (fun p => p.getLast? == some 'S') true
    [(str "M", str "d0/x")] (str "u") (fun _ => []) (fun _ => str "n")
    ⟨[], str "b"⟩

/-- Witness for C9: the failed-upload run exits 0, still ends by checking
out the original branch `b`, and its exit code and non-console trace equal
those of the same run with a succeeding upload command. -/
theorem SplitCl_restores_branch_witness :
    (restoreScenario.getD (1, [])).1 = 0 ∧
    (restoreScenario.getD (1, [])).2.getLast?
      = some (Eff.checkoutBranch (str "b")) ∧
    Option.map (fun ct => (ct.1, nonPrintsOf ct.2))
        (SplitCl (str "body\n\nBug: 12") none (fun _ _ => 0) false false false
          0 none (str "/r") (str "/r") (fun p => p.getLast? == some 'S') true
          [(str "M", str "d0/x")] (str "u") (fun _ => []) (fun _ => str "n")
          ⟨[], str "b"⟩)
      = some ((restoreScenario.getD (1, [])).1,
          nonPrintsOf (restoreScenario.getD (1, [])).2) := by
  obtain ⟨⟨code, trace⟩, hres⟩ : ∃ r, restoreScenario = some r := ⟨_, rfl⟩
  obtain ⟨g, hg⟩ : ∃ g, GetFilesSplitByOwners
      (fun p => p.getLast? == some 'S')
      ([(str "M", str "d0/x")].map (fun af => (pystrip af.1, af.2))) 0
      = some g := ⟨_, rfl⟩
  have hmain := SplitCl_restores_branch (str "body\n\nBug: 12") none
    (fun _ _ => 1) false false false 0 none (str "/r") (str "/r")
    (fun p => p.getLast? == some 'S') [(str "M", str "d0/x")] (str "u")
    (fun _ => []) (fun _ => str "n") ⟨[], str "b"⟩
    (str "body\n\nThis CL was uploaded by git cl split.\n\nBug: 12") g code
    trace (by rfl) (by decide) (by decide) (by decide) hg
    (fun h => absurd h.1 (by decide)) (by decide) hres
  obtain ⟨hc0, hlast, hind, hrep⟩ := hmain
  refine ⟨?_, ?_, ?_⟩
  · rw [hres]
    exact hc0
  · rw [hres]
    exact hlast
  · rw [hres]
    exact hind (fun _ _ => 0)
